import Mathlib

/-!
# go-transcribe: speaker naming, time rendering and transcript aggregation

A shallow embedding of `main.go`.  The program reads four environment
values, hands an audio file to a speech recognizer, and for every recognized
utterance walks the decoded JSON payload (`NBest` → `Words`), names the
speakers in first-seen order, stores each word in a map keyed by its time
range and prints a progress line.  When recognition is over it writes one
line per stored entry to the output file.

Modelling conventions

* `sync.Map` is an association list with unique-key `Store` semantics.  The
  order of the list is internal to the model: the order in which the map
  yields its entries when it is iterated is not fixed by the program, it is
  given by the `World` (`Iter`) and is only known to be a permutation of the
  entries.
* `float64` values are restricted to the non-negative whole numbers (the
  service reports tick counts); such a value is a `Nat`, and a float
  multiplication or addition is the exact result rounded to a 53-bit
  significand, ties to even (`roundF64`).  Operations are evaluated one by
  one, without fusing.
* `int64` values are `Int`; integer multiplication wraps modulo `2^64`
  (`wrapInt64`) and the conversion of a float that does not fit gives the
  smallest `int64`, as on amd64 (`toInt64`).
* A Go panic is the `error` case of `Except`.
* The environment (variables, file system, recognizer, JSON decoder, local
  time zone) is a `World` record; what the program does to it is a list of
  `Effect`s.
-/

set_option linter.dupNamespace false
set_option maxRecDepth 100000

namespace Transcribe

/-! ## `sync.Map` -/

/-- The `sync.Map` of the program: string keys, at most one entry per key when built with
`Store`.  The order of the list is not the iteration order of the map. -/
abbrev SyncMap (α : Type) := List (String × α)

/-- The method `Load`: the value stored under `key`, `none` for Go's `nil`. -/
def SyncMap.Load {α : Type} : SyncMap α → String → Option α
  | [], _ => none
  | (k, v) :: m, key => if k = key then some v else SyncMap.Load m key

/-- The method `Store`: replaces the value of an existing key, otherwise adds an entry. -/
def SyncMap.Store {α : Type} : SyncMap α → String → α → SyncMap α
  | [], key, v => [(key, v)]
  | (k, x) :: m, key, v =>
    if k = key then (k, v) :: m else (k, x) :: SyncMap.Store m key v

/-- The keys of a map, in iteration order. -/
def SyncMap.keys {α : Type} (m : SyncMap α) : List String := m.map Prod.fst

/-! ## Numbers and time -/

/-- Number of low bits a whole number loses when it is stored in a 53-bit significand. -/
def excessBits : Nat → Nat → Nat
  | 0, _ => 0
  | fuel + 1, n => if n < 2 ^ 53 then 0 else excessBits fuel (n / 2) + 1

/-- Rounding of an exact non-negative whole result to `float64`:
nearest representable value, ties to the even significand. -/
def roundF64 (n : Nat) : Nat :=
  let s := excessBits n n
  let q := n / 2 ^ s
  let r := n % 2 ^ s
  let half := 2 ^ (s - 1)
  let q1 := if r < half then q else if half < r then q + 1 else if q % 2 = 0 then q else q + 1
  q1 * 2 ^ s

/-- The `float64` product `a * b`. -/
def fmul (a b : Nat) : Nat := roundF64 (a * b)

/-- The `float64` sum `a + b`. -/
def fadd (a b : Nat) : Nat := roundF64 (a + b)

/-- The conversion `int64(x)` of a non-negative whole `float64`. -/
def toInt64 (x : Nat) : Int := if x < 2 ^ 63 then (x : Int) else -(2 ^ 63)

/-- Wrap-around of `int64` arithmetic. -/
def wrapInt64 (i : Int) : Int := (i + 2 ^ 63) % 2 ^ 64 - 2 ^ 63

/-- The local time zone: offset in seconds east of UTC in force at a Unix second. -/
abbrev Location := Int → Int

/-- Two decimal digits, zero padded. -/
def pad2 (n : Nat) : String :=
  String.mk [Nat.digitChar (n / 10 % 10), Nat.digitChar (n % 10)]

/-- Three decimal digits, zero padded. -/
def pad3 (n : Nat) : String :=
  String.mk [Nat.digitChar (n / 100 % 10), Nat.digitChar (n / 10 % 10), Nat.digitChar (n % 10)]

/-- Rendering `time.Unix(0, nsec).Format("04:05.000")`: minute and second of
the local wall clock and the milliseconds, truncated. -/
def Format (loc : Location) (nsec : Int) : String :=
  let sec := nsec / 1000000000
  let frac := nsec % 1000000000
  let wall := sec + loc sec
  pad2 ((wall % 3600 / 60).toNat) ++ ":" ++ pad2 ((wall % 60).toNat) ++ "." ++
    pad3 ((frac / 1000000).toNat)

/-! ## Words, speakers, transcript -/

/-- The struct `Word`. -/
structure Word where
  SpeakerId : String
  Word : String
  Offset : Nat
  Duration : Nat
  deriving DecidableEq, Repr

/-- Nanoseconds of `startTime` in the handler, and of the first time in the writer:
`int64(Offset*10000000)`. -/
def startNano (w : Word) : Int := toInt64 (fmul w.Offset 10000000)

/-- Nanoseconds of `endTime` in the handler: `int64(Offset+Duration)*10000000`. -/
def endNano (w : Word) : Int := wrapInt64 (toInt64 (fadd w.Offset w.Duration) * 10000000)

/-- Nanoseconds of the second time in the writer:
`int64(Offset*10000000+Duration*10000000)`. -/
def fileEndNano (w : Word) : Int :=
  toInt64 (fadd (fmul w.Offset 10000000) (fmul w.Duration 10000000))

/-- The transcript key `fmt.Sprintf("%d-%d", startTime.UnixNano(), endTime.UnixNano())`. -/
def storeKey (w : Word) : String := toString (startNano w) ++ "-" ++ toString (endNano w)

/-- The verb `%s` applied to the result of `speakers.Load`. -/
def fmtName : Option String → String
  | some name => name
  | none => "%!s(<nil>)"

/-- The format `"- **%s** (%s - %s): %s\n"`. -/
def fmtLine (name start stop word : String) : String :=
  "- **" ++ name ++ "** (" ++ start ++ " - " ++ stop ++ "): " ++ word ++ "\n"

/-- What the handler has built so far: both maps and the lines printed. -/
structure State where
  speakers : SyncMap String
  transcriptData : SyncMap Word
  stdout : List String
  deriving DecidableEq, Repr

/-- Both maps empty, nothing printed. -/
def State.init : State := ⟨[], [], []⟩

/-- Replacement of an empty speaker id. -/
def speakerKey (speakerId : String) : String :=
  if speakerId = "" then "Unknown" else speakerId

/-- The naming step: load; if absent store `"Speaker <size+1>"` and load again. -/
def nameStep (speakers : SyncMap String) (speakerId : String) : SyncMap String × Option String :=
  match speakers.Load speakerId with
  | some name => (speakers, some name)
  | none =>
    let speakers1 := speakers.Store speakerId ("Speaker " ++ toString (speakers.length + 1))
    (speakers1, speakers1.Load speakerId)

/-- The progress line the handler prints for a word, given the name it loaded. -/
def liveLine (loc : Location) (speakerName : Option String) (w : Word) : String :=
  fmtLine (fmtName speakerName) (Format loc (startNano w)) (Format loc (endNano w)) w.Word

/-- The body of the inner loop once the fields of the word have been read. -/
def processWord (loc : Location) (st : State) (w : Word) : State :=
  let speakerId := speakerKey w.SpeakerId
  let named := nameStep st.speakers speakerId
  { speakers := named.1
    transcriptData := st.transcriptData.Store (storeKey w) { w with SpeakerId := speakerId }
    stdout := st.stdout ++ [liveLine loc named.2 w] }

/-- The line the writer emits for a stored record. -/
def fileLine (loc : Location) (speakers : SyncMap String) (w : Word) : String :=
  fmtLine (fmtName (speakers.Load w.SpeakerId)) (Format loc (startNano w))
    (Format loc (fileEndNano w)) w.Word

/-- The writer loop: one `Fprintf` per entry of the transcript store, for the entries in
the order in which the iteration yields them. -/
def writeTranscript (loc : Location) (speakers : SyncMap String) : SyncMap Word → List String
  | [] => []
  | (_, w) :: rest => fileLine loc speakers w :: writeTranscript loc speakers rest

/-! ## The decoded payload -/

/-- A value produced by `json.Unmarshal` into `interface{}`. -/
inductive JSON where
  | null
  | bool (b : Bool)
  | number (x : Nat)
  | string (s : String)
  | array (elems : List JSON)
  | object (fields : List (String × JSON))

/-- Indexing a `map[string]interface{}`: a missing key gives `nil`. -/
def JSON.index : List (String × JSON) → String → JSON
  | [], _ => JSON.null
  | (k, v) :: rest, key => if k = key then v else JSON.index rest key

/-- The assertion `.([]interface{})`. -/
def assertArray : JSON → Option (List JSON)
  | JSON.array elems => some elems
  | _ => none

/-- The assertion `.(map[string]interface{})`. -/
def assertMap : JSON → Option (List (String × JSON))
  | JSON.object fields => some fields
  | _ => none

/-- The assertion `.(string)`. -/
def assertString : JSON → Option String
  | JSON.string s => some s
  | _ => none

/-- The assertion `.(float64)`. -/
def assertFloat64 : JSON → Option Nat
  | JSON.number x => some x
  | _ => none

/-- The process has panicked; `stdout` holds the lines printed before. -/
structure Crash where
  stdout : List String
  deriving DecidableEq, Repr

/-- A failed type assertion panics. -/
def orPanic {α : Type} (st : State) : Option α → Except Crash α
  | some a => Except.ok a
  | none => Except.error ⟨st.stdout⟩

/-- The body of the loop over `words`, for one element. -/
def wordStep (loc : Location) (st : State) (word : JSON) : Except Crash State := do
  let w ← orPanic st (assertMap word)
  let speakerId ← orPanic st (assertString (JSON.index w "SpeakerId"))
  let offset ← orPanic st (assertFloat64 (JSON.index w "Offset"))
  let duration ← orPanic st (assertFloat64 (JSON.index w "Duration"))
  let text ← orPanic st (assertString (JSON.index w "Word"))
  pure (processWord loc st ⟨speakerId, text, offset, duration⟩)

/-- A `for ... range` loop whose body may panic. -/
def forEach {α : Type} (body : State → α → Except Crash State) :
    State → List α → Except Crash State
  | st, [] => Except.ok st
  | st, a :: rest =>
    match body st a with
    | Except.ok st1 => forEach body st1 rest
    | Except.error c => Except.error c

/-- The loop `for _, word := range words`. -/
def wordsLoop (loc : Location) (st : State) (words : List JSON) : Except Crash State :=
  forEach (wordStep loc) st words

/-- The body of the loop over `nBest`, for one element. -/
def sentenceStep (loc : Location) (st : State) (sentence : JSON) : Except Crash State := do
  let m ← orPanic st (assertMap sentence)
  let words ← orPanic st (assertArray (JSON.index m "Words"))
  wordsLoop loc st words

/-- The loop `for _, sentence := range nBest`. -/
def sentencesLoop (loc : Location) (st : State) (nBest : List JSON) : Except Crash State :=
  forEach (sentenceStep loc) st nBest

/-- The enumeration `ResultReason` of the SDK. -/
inductive ResultReason where
  | NoMatch
  | Canceled
  | RecognizingSpeech
  | RecognizedSpeech
  deriving DecidableEq, Repr

/-- The part of `SpeechRecognitionEventArgs` the handler reads. -/
structure Event where
  Reason : ResultReason
  Text : String
  deriving DecidableEq, Repr

/-- The variable `resultJson` after `json.Unmarshal`: the fields of the decoded
object, and the nil map (which reads as empty) when the text is not a JSON object. -/
def resultJson (decode : String → Option JSON) (text : String) : List (String × JSON) :=
  match decode text with
  | some (JSON.object fields) => fields
  | _ => []

/-- The handler `recognizer.Recognized`. -/
def Recognized (decode : String → Option JSON) (loc : Location) (st : State) (s : Event) :
    Except Crash State :=
  if s.Reason = ResultReason.RecognizedSpeech then do
    let nBest ← orPanic st (assertArray (JSON.index (resultJson decode s.Text) "NBest"))
    sentencesLoop loc st nBest
  else
    pure st

/-- The handler called on the events of a run, one after the other. -/
def deliver (decode : String → Option JSON) (loc : Location) (st : State) (events : List Event) :
    Except Crash State :=
  forEach (Recognized decode loc) st events

/-! ## The program -/

/-- Everything `main` asks of its surroundings. -/
structure World where
  /-- The function `os.Getenv`. -/
  Getenv : String → String
  /-- The error of `speechsdk.NewSpeechConfig`, if any. -/
  NewSpeechConfig : String → String → Option String
  /-- The error of `ioutil.ReadFile`, if any. -/
  ReadFile : String → Option String
  /-- The decoder `json.Unmarshal`: the value of a valid JSON text. -/
  Unmarshal : String → Option JSON
  /-- The events the recognizer delivers during `RecognizeOnceAsync`. -/
  events : List Event
  /-- The error of `RecognizeOnceAsync`, if any. -/
  RecognizeOnceAsync : Option String
  /-- The error of `os.Create`, if any. -/
  Create : String → Option String
  /-- The zone `time.Local`. -/
  Local : Location
  /-- The order in which `transcriptData.Iter()` yields the entries of the map. -/
  Iter : SyncMap Word → SyncMap Word
  /-- Iterating yields every entry of the map once, in some order. -/
  Iter_perm : ∀ m : SyncMap Word, (Iter m).Perm m

/-- What the program does, in order. -/
inductive Effect where
  | Print (text : String)
  | ReadFile (name : String)
  | Recognize
  | Create (name : String)
  | Fprint (text : String)
  | Panic
  deriving DecidableEq, Repr

/-- The last part of `main`: create the file and write the transcript. -/
def writeOutput (w : World) (outputFilename : String) (st : State) : List Effect :=
  Effect.Print "Transcription completed. Writing to output file...\n" ::
  Effect.Create outputFilename ::
  match w.Create outputFilename with
  | some err => [Effect.Print ("Error creating output file: " ++ err ++ "\n")]
  | none =>
    (writeTranscript w.Local st.speakers (w.Iter st.transcriptData)).map Effect.Fprint ++
      [Effect.Print ("Output written to " ++ outputFilename ++ "\n")]

/-- The middle part of `main`: from `NewSpeechConfig` to the end of recognition. -/
def transcribe (w : World) (subscriptionKey serviceRegion audioFilename outputFilename : String) :
    List Effect :=
  match w.NewSpeechConfig subscriptionKey serviceRegion with
  | some err => [Effect.Print ("Error creating speech config: " ++ err ++ "\n")]
  | none =>
    Effect.ReadFile audioFilename ::
    match w.ReadFile audioFilename with
    | some err => [Effect.Print ("Error reading audio file: " ++ err ++ "\n")]
    | none =>
      Effect.Print "Starting transcription and diarization...\n" ::
      Effect.Recognize ::
      match deliver w.Unmarshal w.Local State.init w.events with
      | Except.error c => c.stdout.map Effect.Print ++ [Effect.Panic]
      | Except.ok st =>
        st.stdout.map Effect.Print ++
        match w.RecognizeOnceAsync with
        | some err => [Effect.Print ("Error recognizing speech: " ++ err ++ "\n")]
        | none => writeOutput w outputFilename st

/-- The function `main`. -/
def main (w : World) : List Effect :=
  let subscriptionKey := w.Getenv "AZURE_SPEECH_KEY"
  if subscriptionKey = "" then [Effect.Print "AZURE_SPEECH_KEY must be set\n"] else
  let serviceRegion := w.Getenv "AZURE_SERVICE_REGION"
  if serviceRegion = "" then [Effect.Print "AZURE_SERVICE_REGION must be set\n"] else
  let audioFilename := w.Getenv "SOUND_FILE"
  if audioFilename = "" then [Effect.Print "SOUND_FILE must be set\n"] else
  let outputFilename := w.Getenv "OUTPUT_FILE"
  if outputFilename = "" then [Effect.Print "OUTPUT_FILE must be set\n"] else
  transcribe w subscriptionKey serviceRegion audioFilename outputFilename

/-! ## The words of a run -/

/-- Apply `f` to every element; `none` as soon as one application fails. -/
def traverseOpt {α β : Type} (f : α → Option β) : List α → Option (List β)
  | [] => some []
  | a :: rest =>
    match f a with
    | none => none
    | some b =>
      match traverseOpt f rest with
      | none => none
      | some bs => some (b :: bs)

/-- The fields the handler reads from an element of `Words`, when all are there. -/
def wordOf (word : JSON) : Option Word := do
  let w ← assertMap word
  let speakerId ← assertString (JSON.index w "SpeakerId")
  let offset ← assertFloat64 (JSON.index w "Offset")
  let duration ← assertFloat64 (JSON.index w "Duration")
  let text ← assertString (JSON.index w "Word")
  pure ⟨speakerId, text, offset, duration⟩

/-- The words of one element of `NBest`. -/
def sentenceWords (sentence : JSON) : Option (List Word) := do
  let m ← assertMap sentence
  let words ← assertArray (JSON.index m "Words")
  traverseOpt wordOf words

/-- The words of a result text, candidate after candidate. -/
def payloadWords (decode : String → Option JSON) (text : String) : Option (List Word) := do
  let nBest ← assertArray (JSON.index (resultJson decode text) "NBest")
  let sentences ← traverseOpt sentenceWords nBest
  pure sentences.flatten

/-- The words the handler processes for an event: none unless speech was recognized. -/
def eventWords (decode : String → Option JSON) (s : Event) : Option (List Word) :=
  if s.Reason = ResultReason.RecognizedSpeech then payloadWords decode s.Text else some []

/-- The words of a run, in the order in which the handler processes them. -/
def runWords (decode : String → Option JSON) (events : List Event) : Option (List Word) :=
  (traverseOpt (eventWords decode) events).map List.flatten

/-- The loop body applied to a sequence of words. -/
def feed (loc : Location) (st : State) (ws : List Word) : State :=
  ws.foldl (processWord loc) st

/-- The record the handler stores for a word: the speaker id replaced when empty. -/
def stored (w : Word) : Word := { w with SpeakerId := speakerKey w.SpeakerId }

/-- The speaker ids of a sequence of words, empty ids replaced. -/
def speakerIds (ws : List Word) : List String := ws.map (fun w => speakerKey w.SpeakerId)

/-- Position of `id` among the distinct ids of `ids` in order of first appearance,
counted from one: one more than the number of distinct ids before its first occurrence. -/
def firstSeenRank (ids : List String) (id : String) : Nat :=
  ((ids.take (ids.indexOf id)).toFinset.card) + 1

/-- The expected shape of an element of `Words`: an object with string `SpeakerId`,
string `Word`, numeric `Offset` and numeric `Duration`. -/
def WordShape (word : JSON) : Prop :=
  ∃ w, word = JSON.object w ∧
    (∃ s, JSON.index w "SpeakerId" = JSON.string s) ∧
    (∃ s, JSON.index w "Word" = JSON.string s) ∧
    (∃ x, JSON.index w "Offset" = JSON.number x) ∧
    (∃ x, JSON.index w "Duration" = JSON.number x)

/-- The expected shape of an element of `NBest`: an object with a `Words` array of words. -/
def SentenceShape (sentence : JSON) : Prop :=
  ∃ m, sentence = JSON.object m ∧
    ∃ words, JSON.index m "Words" = JSON.array words ∧ ∀ word ∈ words, WordShape word

/-- The expected shape of a decoded result text: an object with an `NBest` array of sentences. -/
def ExpectedShape (decoded : Option JSON) : Prop :=
  ∃ fields, decoded = some (JSON.object fields) ∧
    ∃ nBest, JSON.index fields "NBest" = JSON.array nBest ∧
      ∀ sentence ∈ nBest, SentenceShape sentence

/-- The four required environment variables, in the order in which `main` checks them. -/
def requiredNames : List String :=
  ["AZURE_SPEECH_KEY", "AZURE_SERVICE_REGION", "SOUND_FILE", "OUTPUT_FILE"]

/-- The first required variable that is empty. -/
def firstMissing (getenv : String → String) : Option String :=
  requiredNames.find? (fun name => getenv name = "")

/-- The zone UTC. -/
def utc : Location := fun _ => 0

/-- The registry names the ids of `seen` by their rank of first appearance. -/
def Ranked (m : SyncMap String) (seen : List String) : Prop :=
  m.length = seen.toFinset.card ∧ (∀ id, id ∈ m.keys ↔ id ∈ seen) ∧
    ∀ id ∈ seen, m.Load id = some ("Speaker " ++ toString (firstSeenRank seen id))

/-! ## Reading a key back -/

/-- The number written by a sequence of decimal digits. -/
def digitsValue (l : List Char) : Nat := l.foldl (fun acc c => 10 * acc + (c.toNat - 48)) 0

/-- The integer written by an optional minus sign and decimal digits. -/
def intValue (l : List Char) : Int :=
  if l.head? = some '-' then -((digitsValue l.tail : Nat) : Int) else ((digitsValue l : Nat) : Int)

/-- The two parts of a transcript key: the text before the separating `-` and the text
after it. -/
def keyParts (l : List Char) : List Char × List Char :=
  if l.head? = some '-' then
    ('-' :: l.tail.takeWhile Char.isDigit, (l.tail.dropWhile Char.isDigit).tail)
  else (l.takeWhile Char.isDigit, (l.dropWhile Char.isDigit).tail)

/-! ## Concrete payloads -/

/-- An element of `Words` of the expected shape. -/
def sampleWord (speakerId text : String) (offset duration : Nat) : JSON :=
  JSON.object [("SpeakerId", JSON.string speakerId), ("Word", JSON.string text),
    ("Offset", JSON.number offset), ("Duration", JSON.number duration)]

/-- An element of `NBest` with the given words. -/
def sampleSentence (words : List JSON) : JSON :=
  JSON.object [("Words", JSON.array words)]

/-- A decoded result text with the given candidates. -/
def samplePayload (sentences : List JSON) : JSON :=
  JSON.object [("DisplayText", JSON.string "..."), ("NBest", JSON.array sentences)]

/-- An event of recognized speech. -/
def recognized (text : String) : Event := ⟨ResultReason.RecognizedSpeech, text⟩

/-- A decoder that knows one text: four words spoken by `A`, `B`, `A`, `C`. -/
def decodeABAC : String → Option JSON := fun text =>
  if text = "abac" then
    some (samplePayload [sampleSentence [sampleWord "A" "good" 0 1, sampleWord "B" "morning" 1 1,
      sampleWord "A" "to" 2 1, sampleWord "C" "you" 3 1]])
  else none

/-- A decoder that knows two texts, one word each, both words at the same time range. -/
def decodeTwo : String → Option JSON := fun text =>
  if text = "one" then some (samplePayload [sampleSentence [sampleWord "1" "yes" 0 5]])
  else if text = "two" then some (samplePayload [sampleSentence [sampleWord "2" "no" 0 5]])
  else none

/-! ## Lemmas: `sync.Map` -/

theorem Load_Store_self {α : Type} (m : SyncMap α) (k : String) (v : α) :
    (m.Store k v).Load k = some v := by
  induction m with
  | nil => simp [SyncMap.Store, SyncMap.Load]
  | cons e m ih =>
    obtain ⟨k1, x⟩ := e
    by_cases h : k1 = k
    · simp [SyncMap.Store, SyncMap.Load, h]
    · simp [SyncMap.Store, SyncMap.Load, h, ih]

theorem Load_Store_ne {α : Type} (m : SyncMap α) (k k1 : String) (v : α) (h : k ≠ k1) :
    (m.Store k v).Load k1 = m.Load k1 := by
  induction m with
  | nil => simp [SyncMap.Store, SyncMap.Load, h]
  | cons e m ih =>
    obtain ⟨k2, x⟩ := e
    by_cases h2 : k2 = k
    · subst h2
      simp [SyncMap.Store, SyncMap.Load, h]
    · by_cases h3 : k2 = k1
      · subst h3
        simp [SyncMap.Store, SyncMap.Load, h2]
      · simp [SyncMap.Store, SyncMap.Load, h2, h3, ih]

theorem Load_eq_none_iff {α : Type} (m : SyncMap α) (k : String) :
    m.Load k = none ↔ k ∉ m.keys := by
  induction m with
  | nil => simp [SyncMap.Load, SyncMap.keys]
  | cons e m ih =>
    obtain ⟨k1, x⟩ := e
    by_cases h : k1 = k
    · simp [SyncMap.Load, SyncMap.keys, h]
    · have h1 : ¬ k = k1 := fun h2 => h h2.symm
      simpa [SyncMap.Load, SyncMap.keys, h, h1] using ih

theorem Store_of_not_mem {α : Type} (m : SyncMap α) (k : String) (v : α) (h : k ∉ m.keys) :
    m.Store k v = m ++ [(k, v)] := by
  induction m with
  | nil => simp [SyncMap.Store]
  | cons e m ih =>
    obtain ⟨k1, x⟩ := e
    have h1 : ¬ k1 = k := by
      intro h2
      exact h (by simp [SyncMap.keys, h2])
    have h2 : k ∉ SyncMap.keys m := by
      intro h3
      exact h (by simp [SyncMap.keys] at h3 ⊢; exact Or.inr h3)
    simp [SyncMap.Store, h1, ih h2]

theorem keys_Store_of_mem {α : Type} (m : SyncMap α) (k : String) (v : α) (h : k ∈ m.keys) :
    (m.Store k v).keys = m.keys := by
  induction m with
  | nil => simp [SyncMap.keys] at h
  | cons e m ih =>
    obtain ⟨k1, x⟩ := e
    by_cases h1 : k1 = k
    · simp [SyncMap.Store, SyncMap.keys, h1]
    · have h2 : k ∈ SyncMap.keys m := by
        simp only [SyncMap.keys, List.map_cons, List.mem_cons] at h
        rcases h with h | h
        · exact absurd h.symm h1
        · exact h
      have := ih h2
      simp only [SyncMap.keys] at this
      simp [SyncMap.Store, SyncMap.keys, h1, this]

theorem keys_Store_of_not_mem {α : Type} (m : SyncMap α) (k : String) (v : α) (h : k ∉ m.keys) :
    (m.Store k v).keys = m.keys ++ [k] := by
  rw [Store_of_not_mem m k v h]
  simp [SyncMap.keys]

/-! ## Lemmas: the handler processes the words of the payload -/

theorem feed_nil (loc : Location) (st : State) : feed loc st [] = st := rfl

theorem feed_cons (loc : Location) (st : State) (w : Word) (ws : List Word) :
    feed loc st (w :: ws) = feed loc (processWord loc st w) ws := rfl

theorem feed_append (loc : Location) (st : State) (ws1 ws2 : List Word) :
    feed loc st (ws1 ++ ws2) = feed loc (feed loc st ws1) ws2 := by
  simp [feed, List.foldl_append]

theorem wordStep_eq (loc : Location) (st : State) (word : JSON) :
    wordStep loc st word =
      match wordOf word with
      | some w => Except.ok (processWord loc st w)
      | none => Except.error ⟨st.stdout⟩ := by
  unfold wordStep wordOf
  cases h1 : assertMap word with
  | none => rfl
  | some w =>
    cases h2 : assertString (JSON.index w "SpeakerId") with
    | none => simp [orPanic, h2, bind, Except.bind]
    | some speakerId =>
      cases h3 : assertFloat64 (JSON.index w "Offset") with
      | none => simp [orPanic, h2, h3, bind, Except.bind]
      | some offset =>
        cases h4 : assertFloat64 (JSON.index w "Duration") with
        | none => simp [orPanic, h2, h3, h4, bind, Except.bind]
        | some duration =>
          cases h5 : assertString (JSON.index w "Word") with
          | none => simp [orPanic, h2, h3, h4, h5, bind, Except.bind]
          | some text => simp [orPanic, h2, h3, h4, h5, bind, Except.bind, pure, Except.pure]

theorem wordsLoop_of_some (loc : Location) (words : List JSON) :
    ∀ (st : State) (ws : List Word), traverseOpt wordOf words = some ws →
      wordsLoop loc st words = Except.ok (feed loc st ws) := by
  induction words with
  | nil =>
    intro st ws h
    simp [traverseOpt] at h
    subst h
    rfl
  | cons word rest ih =>
    intro st ws h
    simp only [traverseOpt] at h
    cases hw : wordOf word with
    | none => simp [hw] at h
    | some w =>
      cases hr : traverseOpt wordOf rest with
      | none => simp [hw, hr] at h
      | some rs =>
        simp [hw, hr] at h
        subst h
        have := ih (processWord loc st w) rs hr
        simp only [wordsLoop] at this
        simp [wordsLoop, forEach, wordStep_eq, hw, this, feed_cons]

theorem wordsLoop_of_none (loc : Location) (words : List JSON) :
    ∀ (st : State), traverseOpt wordOf words = none →
      ∃ c, wordsLoop loc st words = Except.error c := by
  induction words with
  | nil =>
    intro st h
    simp [traverseOpt] at h
  | cons word rest ih =>
    intro st h
    simp only [traverseOpt] at h
    cases hw : wordOf word with
    | none => exact ⟨⟨st.stdout⟩, by simp [wordsLoop, forEach, wordStep_eq, hw]⟩
    | some w =>
      cases hr : traverseOpt wordOf rest with
      | some rs => simp [hw, hr] at h
      | none =>
        obtain ⟨c, hc⟩ := ih (processWord loc st w) hr
        simp only [wordsLoop] at hc
        exact ⟨c, by simp [wordsLoop, forEach, wordStep_eq, hw, hc]⟩

theorem forEach_of_some {α : Type} (loc : Location) (body : State → α → Except Crash State)
    (f : α → Option (List Word))
    (hbody : ∀ st a ws, f a = some ws → body st a = Except.ok (feed loc st ws))
    (xs : List α) :
    ∀ (st : State) (wss : List (List Word)), traverseOpt f xs = some wss →
      forEach body st xs = Except.ok (feed loc st wss.flatten) := by
  induction xs with
  | nil =>
    intro st wss h
    simp [traverseOpt] at h
    subst h
    rfl
  | cons a rest ih =>
    intro st wss h
    simp only [traverseOpt] at h
    cases ha : f a with
    | none => simp [ha] at h
    | some ws =>
      cases hr : traverseOpt f rest with
      | none => simp [ha, hr] at h
      | some rs =>
        simp [ha, hr] at h
        subst h
        simp [forEach, hbody st a ws ha, ih (feed loc st ws) rs hr, feed_append]

theorem forEach_of_none {α : Type} (loc : Location) (body : State → α → Except Crash State)
    (f : α → Option (List Word))
    (hsome : ∀ st a ws, f a = some ws → body st a = Except.ok (feed loc st ws))
    (hnone : ∀ st a, f a = none → ∃ c, body st a = Except.error c)
    (xs : List α) :
    ∀ (st : State), traverseOpt f xs = none → ∃ c, forEach body st xs = Except.error c := by
  induction xs with
  | nil =>
    intro st h
    simp [traverseOpt] at h
  | cons a rest ih =>
    intro st h
    simp only [traverseOpt] at h
    cases ha : f a with
    | none =>
      obtain ⟨c, hc⟩ := hnone st a ha
      exact ⟨c, by simp [forEach, hc]⟩
    | some ws =>
      cases hr : traverseOpt f rest with
      | some rs => simp [ha, hr] at h
      | none =>
        obtain ⟨c, hc⟩ := ih (feed loc st ws) hr
        exact ⟨c, by simp [forEach, hsome st a ws ha, hc]⟩

theorem sentenceStep_of_some (loc : Location) (st : State) (sentence : JSON) (ws : List Word)
    (h : sentenceWords sentence = some ws) :
    sentenceStep loc st sentence = Except.ok (feed loc st ws) := by
  unfold sentenceWords at h
  unfold sentenceStep
  cases h1 : assertMap sentence with
  | none => simp [h1] at h
  | some m =>
    cases h2 : assertArray (JSON.index m "Words") with
    | none => simp [h1, h2] at h
    | some words =>
      simp [h1, h2] at h
      simp [orPanic, h2, bind, Except.bind, wordsLoop_of_some loc words st ws h]

theorem sentenceStep_of_none (loc : Location) (st : State) (sentence : JSON)
    (h : sentenceWords sentence = none) :
    ∃ c, sentenceStep loc st sentence = Except.error c := by
  unfold sentenceWords at h
  unfold sentenceStep
  cases h1 : assertMap sentence with
  | none => exact ⟨⟨st.stdout⟩, rfl⟩
  | some m =>
    cases h2 : assertArray (JSON.index m "Words") with
    | none => exact ⟨⟨st.stdout⟩, by simp [orPanic, h2, bind, Except.bind]⟩
    | some words =>
      simp [h1, h2] at h
      obtain ⟨c, hc⟩ := wordsLoop_of_none loc words st h
      exact ⟨c, by simp [orPanic, h2, bind, Except.bind, hc]⟩

theorem Recognized_of_some (decode : String → Option JSON) (loc : Location) (st : State)
    (s : Event) (ws : List Word) (h : eventWords decode s = some ws) :
    Recognized decode loc st s = Except.ok (feed loc st ws) := by
  unfold eventWords at h
  unfold Recognized
  by_cases hr : s.Reason = ResultReason.RecognizedSpeech
  · simp only [hr, if_true] at h ⊢
    unfold payloadWords at h
    cases h1 : assertArray (JSON.index (resultJson decode s.Text) "NBest") with
    | none => simp [h1] at h
    | some nBest =>
      cases h2 : traverseOpt sentenceWords nBest with
      | none => simp [h1, h2] at h
      | some wss =>
        simp [h1, h2] at h
        subst h
        simp [orPanic, bind, Except.bind, sentencesLoop,
          forEach_of_some loc (sentenceStep loc) sentenceWords
            (sentenceStep_of_some loc) nBest st wss h2]
  · simp only [hr, if_false] at h ⊢
    simp at h
    subst h
    rfl

theorem Recognized_of_none (decode : String → Option JSON) (loc : Location) (st : State)
    (s : Event) (h : eventWords decode s = none) :
    ∃ c, Recognized decode loc st s = Except.error c := by
  unfold eventWords at h
  unfold Recognized
  by_cases hr : s.Reason = ResultReason.RecognizedSpeech
  · simp only [hr, if_true] at h ⊢
    unfold payloadWords at h
    cases h1 : assertArray (JSON.index (resultJson decode s.Text) "NBest") with
    | none => exact ⟨⟨st.stdout⟩, by simp [orPanic, bind, Except.bind]⟩
    | some nBest =>
      cases h2 : traverseOpt sentenceWords nBest with
      | some wss => simp [h1, h2] at h
      | none =>
        obtain ⟨c, hc⟩ := forEach_of_none loc (sentenceStep loc) sentenceWords
          (sentenceStep_of_some loc) (sentenceStep_of_none loc) nBest st h2
        exact ⟨c, by simp [orPanic, bind, Except.bind, sentencesLoop, hc]⟩
  · simp [hr] at h

theorem deliver_of_some (decode : String → Option JSON) (loc : Location) (st : State)
    (events : List Event) (ws : List Word) (h : runWords decode events = some ws) :
    deliver decode loc st events = Except.ok (feed loc st ws) := by
  unfold runWords at h
  cases h1 : traverseOpt (eventWords decode) events with
  | none => simp [h1] at h
  | some wss =>
    simp [h1] at h
    subst h
    exact forEach_of_some loc (Recognized decode loc) (eventWords decode)
      (fun st a ws => Recognized_of_some decode loc st a ws) events st wss h1

theorem deliver_of_none (decode : String → Option JSON) (loc : Location) (st : State)
    (events : List Event) (h : runWords decode events = none) :
    ∃ c, deliver decode loc st events = Except.error c := by
  unfold runWords at h
  cases h1 : traverseOpt (eventWords decode) events with
  | some wss => simp [h1] at h
  | none =>
    exact forEach_of_none loc (Recognized decode loc) (eventWords decode)
      (fun st a ws => Recognized_of_some decode loc st a ws)
      (fun st a => Recognized_of_none decode loc st a) events st h1

/-! ## Lemmas: the speaker registry -/

theorem speakerKey_ne_empty (speakerId : String) : speakerKey speakerId ≠ "" := by
  unfold speakerKey
  by_cases h : speakerId = ""
  · simp [h]
  · simp [h]

theorem nameStep_of_some (m : SyncMap String) (id name : String) (h : m.Load id = some name) :
    nameStep m id = (m, some name) := by
  simp [nameStep, h]

theorem nameStep_of_none (m : SyncMap String) (id : String) (h : m.Load id = none) :
    nameStep m id =
      (m ++ [(id, "Speaker " ++ toString (m.length + 1))],
        some ("Speaker " ++ toString (m.length + 1))) := by
  have hk : id ∉ m.keys := (Load_eq_none_iff m id).1 h
  simp only [nameStep, h, Load_Store_self]
  rw [Store_of_not_mem m id _ hk]

theorem nameStep_snd (m : SyncMap String) (id : String) :
    (nameStep m id).2 = (nameStep m id).1.Load id ∧ ∃ name, (nameStep m id).2 = some name := by
  cases h : m.Load id with
  | some name => simp [nameStep, h]
  | none => simp [nameStep, h, Load_Store_self]

theorem nameStep_Load_mono (m : SyncMap String) (id k name : String)
    (h : m.Load k = some name) : (nameStep m id).1.Load k = some name := by
  cases h1 : m.Load id with
  | some name1 => simp [nameStep, h1, h]
  | none =>
    have hne : id ≠ k := by
      intro he
      subst he
      simp [h1] at h
    simp [nameStep, h1, Load_Store_ne m id k _ hne, h]

theorem nameStep_keys (m : SyncMap String) (id k : String) :
    k ∈ (nameStep m id).1.keys ↔ k ∈ m.keys ∨ k = id := by
  cases h : m.Load id with
  | some name =>
    have hk : id ∈ m.keys := by
      by_contra hc
      rw [(Load_eq_none_iff m id).2 hc] at h
      simp at h
    simp only [nameStep, h]
    constructor
    · intro h1
      exact Or.inl h1
    · intro h1
      rcases h1 with h1 | h1
      · exact h1
      · subst h1
        exact hk
  | none =>
    rw [nameStep_of_none m id h]
    simp [SyncMap.keys]

theorem feed_speakers_mono (loc : Location) (ws : List Word) :
    ∀ (st : State) (k name : String), st.speakers.Load k = some name →
      (feed loc st ws).speakers.Load k = some name := by
  induction ws with
  | nil =>
    intro st k name h
    exact h
  | cons w ws ih =>
    intro st k name h
    rw [feed_cons]
    apply ih
    exact nameStep_Load_mono st.speakers (speakerKey w.SpeakerId) k name h

theorem feed_stdout (loc : Location) (ws : List Word) :
    ∀ (st : State), (feed loc st ws).stdout = st.stdout ++
      ws.map (fun w => liveLine loc ((feed loc st ws).speakers.Load (speakerKey w.SpeakerId)) w) := by
  induction ws with
  | nil =>
    intro st
    simp [feed_nil]
  | cons w ws ih =>
    intro st
    rw [feed_cons, ih (processWord loc st w)]
    obtain ⟨h1, name, h2⟩ := nameStep_snd st.speakers (speakerKey w.SpeakerId)
    have h3 : (processWord loc st w).speakers.Load (speakerKey w.SpeakerId) = some name := by
      simp only [processWord]
      rw [← h1, h2]
    have h4 := feed_speakers_mono loc ws (processWord loc st w) _ _ h3
    simp only [List.map_cons, h4]
    simp [processWord, h2]

theorem feed_speakers_keys (loc : Location) (ws : List Word) :
    ∀ (st : State) (k : String),
      k ∈ (feed loc st ws).speakers.keys ↔ k ∈ st.speakers.keys ∨ k ∈ speakerIds ws := by
  induction ws with
  | nil =>
    intro st k
    simp [feed_nil, speakerIds]
  | cons w ws ih =>
    intro st k
    rw [feed_cons, ih (processWord loc st w) k]
    have h := nameStep_keys st.speakers (speakerKey w.SpeakerId) k
    simp only [processWord, speakerIds, List.map_cons, List.mem_cons] at h ⊢
    rw [h]
    tauto

theorem firstSeenRank_append_of_mem (seen : List String) (x id : String) (h : id ∈ seen) :
    firstSeenRank (seen ++ [x]) id = firstSeenRank seen id := by
  unfold firstSeenRank
  rw [List.indexOf_append_of_mem h]
  rw [List.take_append_of_le_length (le_of_lt (List.indexOf_lt_length.2 h))]

theorem firstSeenRank_append_of_not_mem (seen : List String) (x : String) (h : x ∉ seen) :
    firstSeenRank (seen ++ [x]) x = seen.toFinset.card + 1 := by
  unfold firstSeenRank
  rw [List.indexOf_append_of_not_mem h]
  simp

theorem Ranked_nameStep (m : SyncMap String) (seen : List String) (x : String)
    (h : Ranked m seen) : Ranked (nameStep m x).1 (seen ++ [x]) := by
  obtain ⟨hlen, hkeys, hload⟩ := h
  by_cases hx : x ∈ seen
  · obtain hl := hload x hx
    rw [nameStep_of_some m x _ hl]
    refine ⟨?_, ?_, ?_⟩
    · rw [hlen]
      congr 1
      ext a
      simp only [List.mem_toFinset, List.mem_append, List.mem_singleton]
      constructor
      · intro h1
        exact Or.inl h1
      · intro h1
        rcases h1 with h1 | h1
        · exact h1
        · subst h1
          exact hx
    · intro id
      rw [hkeys id]
      simp only [List.mem_append, List.mem_singleton]
      constructor
      · intro h1
        exact Or.inl h1
      · intro h1
        rcases h1 with h1 | h1
        · exact h1
        · subst h1
          exact hx
    · intro id hid
      have hid1 : id ∈ seen := by
        simp only [List.mem_append, List.mem_singleton] at hid
        rcases hid with h1 | h1
        · exact h1
        · subst h1
          exact hx
      rw [firstSeenRank_append_of_mem seen x id hid1]
      exact hload id hid1
  · have hnk : x ∉ m.keys := fun hc => hx ((hkeys x).1 hc)
    have hnone : m.Load x = none := (Load_eq_none_iff m x).2 hnk
    rw [nameStep_of_none m x hnone]
    refine ⟨?_, ?_, ?_⟩
    · rw [List.length_append, hlen, List.toFinset_append]
      rw [Finset.card_union_of_disjoint]
      · simp
      · simp [hx]
    · intro id
      simp only [SyncMap.keys, List.map_append, List.mem_append, List.map_cons, List.map_nil,
        List.mem_singleton]
      have := hkeys id
      simp only [SyncMap.keys] at this
      rw [this]
    · intro id hid
      simp only [List.mem_append, List.mem_singleton] at hid
      by_cases hidx : id = x
      · subst hidx
        rw [firstSeenRank_append_of_not_mem seen id hx, ← hlen]
        have := Load_Store_self m id ("Speaker " ++ toString (m.length + 1))
        rw [Store_of_not_mem m id _ hnk] at this
        exact this
      · have hid1 : id ∈ seen := by
          rcases hid with h1 | h1
          · exact h1
          · exact absurd h1 hidx
        rw [firstSeenRank_append_of_mem seen x id hid1]
        have := Load_Store_ne m x id ("Speaker " ++ toString (m.length + 1)) (fun hc => hidx hc.symm)
        rw [Store_of_not_mem m x _ hnk] at this
        rw [this]
        exact hload id hid1

theorem Ranked_feed (loc : Location) (ws : List Word) :
    ∀ (st : State) (seen : List String), Ranked st.speakers seen →
      Ranked (feed loc st ws).speakers (seen ++ speakerIds ws) := by
  induction ws with
  | nil =>
    intro st seen h
    simpa [feed_nil, speakerIds] using h
  | cons w ws ih =>
    intro st seen h
    rw [feed_cons]
    have h1 : Ranked (processWord loc st w).speakers (seen ++ [speakerKey w.SpeakerId]) :=
      Ranked_nameStep st.speakers seen (speakerKey w.SpeakerId) h
    have h2 := ih (processWord loc st w) (seen ++ [speakerKey w.SpeakerId]) h1
    simpa [speakerIds] using h2

theorem Ranked_init : Ranked State.init.speakers [] := by
  simp [Ranked, State.init, SyncMap.keys]

/-! ## Lemmas: the transcript store -/

theorem mem_Store {α : Type} (m : SyncMap α) (k : String) (v : α) (e : String × α)
    (h : e ∈ m.Store k v) : e ∈ m ∨ e = (k, v) := by
  induction m with
  | nil =>
    simp [SyncMap.Store] at h
    exact Or.inr h
  | cons e1 m ih =>
    obtain ⟨k1, x⟩ := e1
    by_cases h1 : k1 = k
    · subst h1
      simp only [SyncMap.Store, if_true, List.mem_cons] at h
      rcases h with h | h
      · exact Or.inr h
      · exact Or.inl (List.mem_cons_of_mem _ h)
    · simp only [SyncMap.Store, h1, if_false, List.mem_cons] at h
      rcases h with h | h
      · exact Or.inl (by simp [h])
      · rcases ih h with h2 | h2
        · exact Or.inl (List.mem_cons_of_mem _ h2)
        · exact Or.inr h2

theorem keys_Store_iff {α : Type} (m : SyncMap α) (k k1 : String) (v : α) :
    k1 ∈ (m.Store k v).keys ↔ k1 ∈ m.keys ∨ k1 = k := by
  by_cases h : k ∈ m.keys
  · rw [keys_Store_of_mem m k v h]
    constructor
    · intro h1
      exact Or.inl h1
    · intro h1
      rcases h1 with h1 | h1
      · exact h1
      · subst h1
        exact h
  · rw [keys_Store_of_not_mem m k v h]
    simp

theorem keys_Store_nodup {α : Type} (m : SyncMap α) (k : String) (v : α)
    (h : m.keys.Nodup) : (m.Store k v).keys.Nodup := by
  by_cases hk : k ∈ m.keys
  · rw [keys_Store_of_mem m k v hk]
    exact h
  · rw [keys_Store_of_not_mem m k v hk]
    rw [List.nodup_append]
    refine ⟨h, List.nodup_singleton k, ?_⟩
    intro a ha hb
    simp only [List.mem_singleton] at hb
    subst hb
    exact hk ha

theorem length_keys {α : Type} (m : SyncMap α) : m.keys.length = m.length := by
  simp [SyncMap.keys]

theorem processWord_transcriptData (loc : Location) (st : State) (w : Word) :
    (processWord loc st w).transcriptData = st.transcriptData.Store (storeKey w) (stored w) := rfl

theorem feed_store_keys (loc : Location) (ws : List Word) :
    ∀ (st : State) (k : String),
      k ∈ (feed loc st ws).transcriptData.keys ↔
        k ∈ st.transcriptData.keys ∨ k ∈ ws.map storeKey := by
  induction ws with
  | nil =>
    intro st k
    simp [feed_nil]
  | cons w ws ih =>
    intro st k
    rw [feed_cons, ih (processWord loc st w) k, processWord_transcriptData, keys_Store_iff]
    simp only [List.map_cons, List.mem_cons]
    tauto

theorem feed_store_nodup (loc : Location) (ws : List Word) :
    ∀ (st : State), st.transcriptData.keys.Nodup →
      (feed loc st ws).transcriptData.keys.Nodup := by
  induction ws with
  | nil =>
    intro st h
    exact h
  | cons w ws ih =>
    intro st h
    rw [feed_cons]
    apply ih
    rw [processWord_transcriptData]
    exact keys_Store_nodup _ _ _ h

theorem feed_store_length (loc : Location) (ws : List Word) :
    (feed loc State.init ws).transcriptData.length = (ws.map storeKey).toFinset.card := by
  have hn := feed_store_nodup loc ws State.init (by simp [State.init, SyncMap.keys])
  rw [← length_keys, ← List.toFinset_card_of_nodup hn]
  congr 1
  ext k
  rw [List.mem_toFinset, List.mem_toFinset, feed_store_keys]
  simp [State.init, SyncMap.keys]

theorem feed_store_Load_of_not_key (loc : Location) (ws : List Word) :
    ∀ (st : State) (k : String), (∀ u ∈ ws, storeKey u ≠ k) →
      (feed loc st ws).transcriptData.Load k = st.transcriptData.Load k := by
  induction ws with
  | nil =>
    intro st k _
    rfl
  | cons w ws ih =>
    intro st k h
    rw [feed_cons, ih (processWord loc st w) k (fun u hu => h u (List.mem_cons_of_mem _ hu))]
    rw [processWord_transcriptData]
    exact Load_Store_ne _ _ _ _ (h w (List.mem_cons_self _ _))

theorem feed_store_Load_last (loc : Location) (st : State) (before after : List Word) (w : Word)
    (h : ∀ u ∈ after, storeKey u ≠ storeKey w) :
    (feed loc st (before ++ w :: after)).transcriptData.Load (storeKey w) = some (stored w) := by
  rw [feed_append, feed_cons, feed_store_Load_of_not_key loc after _ _ h,
    processWord_transcriptData]
  exact Load_Store_self _ _ _

theorem feed_store_of_nodup (loc : Location) (ws : List Word) :
    ∀ (st : State), (st.transcriptData.keys ++ ws.map storeKey).Nodup →
      (feed loc st ws).transcriptData =
        st.transcriptData ++ ws.map (fun w => (storeKey w, stored w)) := by
  induction ws with
  | nil =>
    intro st _
    simp [feed_nil]
  | cons w ws ih =>
    intro st h
    have hk : storeKey w ∉ st.transcriptData.keys := by
      intro hc
      rw [List.nodup_append] at h
      exact h.2.2 hc (by simp)
    have hs : (processWord loc st w).transcriptData =
        st.transcriptData ++ [(storeKey w, stored w)] := by
      rw [processWord_transcriptData]
      exact Store_of_not_mem _ _ _ hk
    rw [feed_cons, ih (processWord loc st w), hs]
    · simp
    · rw [hs]
      simpa [SyncMap.keys, List.append_assoc] using h

theorem feed_store_records (loc : Location) (ws : List Word) :
    ∀ (st : State) (e : String × Word), e ∈ (feed loc st ws).transcriptData →
      e ∈ st.transcriptData ∨ ∃ w ∈ ws, e = (storeKey w, stored w) := by
  induction ws with
  | nil =>
    intro st e h
    exact Or.inl h
  | cons w ws ih =>
    intro st e h
    rw [feed_cons] at h
    rcases ih (processWord loc st w) e h with h1 | ⟨u, hu, he⟩
    · rw [processWord_transcriptData] at h1
      rcases mem_Store _ _ _ _ h1 with h2 | h2
      · exact Or.inl h2
      · exact Or.inr ⟨w, List.mem_cons_self _ _, h2⟩
    · exact Or.inr ⟨u, List.mem_cons_of_mem _ hu, he⟩

theorem writeTranscript_eq_map (loc : Location) (speakers : SyncMap String) (store : SyncMap Word) :
    writeTranscript loc speakers store = store.map (fun e => fileLine loc speakers e.2) := by
  induction store with
  | nil => rfl
  | cons e rest ih =>
    obtain ⟨k, w⟩ := e
    simp [writeTranscript, ih]

theorem mem_of_Load {α : Type} (m : SyncMap α) (k : String) (v : α)
    (h : m.Load k = some v) : (k, v) ∈ m := by
  induction m with
  | nil => simp [SyncMap.Load] at h
  | cons e m ih =>
    obtain ⟨k1, x⟩ := e
    by_cases h1 : k1 = k
    · simp [SyncMap.Load, h1] at h
      simp [h1, h]
    · simp [SyncMap.Load, h1] at h
      exact List.mem_cons_of_mem _ (ih h)

/-! ## Lemmas: exact arithmetic -/

theorem excessBits_le (fuel : Nat) :
    ∀ (n k : Nat), n < 2 ^ (53 + k) → excessBits fuel n ≤ k := by
  induction fuel with
  | zero =>
    intro n k _
    simp [excessBits]
  | succ fuel ih =>
    intro n k h
    unfold excessBits
    by_cases hn : n < 2 ^ 53
    · rw [if_pos hn]
      exact Nat.zero_le _
    · rw [if_neg hn]
      cases k with
      | zero => exact absurd h hn
      | succ k =>
        have h2 : n / 2 < 2 ^ (53 + k) := by
          have h3 : 2 ^ (53 + (k + 1)) = 2 * 2 ^ (53 + k) := by ring
          rw [h3] at h
          omega
        have := ih (n / 2) k h2
        omega

theorem roundF64_exact (n k : Nat) (h : n < 2 ^ (53 + k)) (hd : 2 ^ k ∣ n) :
    roundF64 n = n := by
  have hs : excessBits n n ≤ k := excessBits_le n n k h
  have hdvd : 2 ^ excessBits n n ∣ n := Dvd.dvd.trans (Nat.pow_dvd_pow 2 hs) hd
  have hr : n % 2 ^ excessBits n n = 0 := Nat.mod_eq_zero_of_dvd hdvd
  have hpos : 0 < 2 ^ (excessBits n n - 1) := Nat.two_pow_pos _
  simp only [roundF64, hr, hpos, if_true]
  exact Nat.div_mul_cancel hdvd

theorem toInt64_of_lt (x : Nat) (h : x < 2 ^ 63) : toInt64 x = (x : Int) := by
  unfold toInt64
  rw [if_pos h]

theorem wrapInt64_of_range (x : Nat) (h : x < 2 ^ 63) : wrapInt64 (x : Int) = (x : Int) := by
  unfold wrapInt64
  norm_num at h ⊢
  omega

theorem nanos_exact (w : Word) (h : (w.Offset + w.Duration) * 10000000 < 2 ^ 60) :
    startNano w = ((w.Offset * 10000000 : Nat) : Int) ∧
    endNano w = (((w.Offset + w.Duration) * 10000000 : Nat) : Int) ∧
    fileEndNano w = (((w.Offset + w.Duration) * 10000000 : Nat) : Int) := by
  have p60 : (2:Nat) ^ 60 = 1152921504606846976 := by norm_num
  have p607 : (2:Nat) ^ (53 + 7) = 1152921504606846976 := by norm_num
  have p530 : (2:Nat) ^ (53 + 0) = 9007199254740992 := by norm_num
  have p63 : (2:Nat) ^ 63 = 9223372036854775808 := by norm_num
  rw [p60] at h
  have hO : w.Offset * 10000000 < 2 ^ (53 + 7) := by
    rw [p607]
    omega
  have hD : w.Duration * 10000000 < 2 ^ (53 + 7) := by
    rw [p607]
    omega
  have hS : w.Offset * 10000000 + w.Duration * 10000000 < 2 ^ (53 + 7) := by
    rw [p607]
    omega
  have hsum : w.Offset + w.Duration < 2 ^ (53 + 0) := by
    rw [p530]
    omega
  have dO : 2 ^ 7 ∣ w.Offset * 10000000 := ⟨w.Offset * 78125, by omega⟩
  have dD : 2 ^ 7 ∣ w.Duration * 10000000 := ⟨w.Duration * 78125, by omega⟩
  have rO : fmul w.Offset 10000000 = w.Offset * 10000000 := roundF64_exact _ 7 hO dO
  have rD : fmul w.Duration 10000000 = w.Duration * 10000000 := roundF64_exact _ 7 hD dD
  have rS : fadd (w.Offset * 10000000) (w.Duration * 10000000) =
      w.Offset * 10000000 + w.Duration * 10000000 :=
    roundF64_exact _ 7 hS (Dvd.dvd.add dO dD)
  have rA : fadd w.Offset w.Duration = w.Offset + w.Duration :=
    roundF64_exact _ 0 hsum (by simp)
  refine ⟨?_, ?_, ?_⟩
  · unfold startNano
    rw [rO, toInt64_of_lt _ (by rw [p63]; omega)]
  · unfold endNano
    rw [rA, toInt64_of_lt _ (by rw [p63]; omega)]
    have := wrapInt64_of_range ((w.Offset + w.Duration) * 10000000) (by rw [p63]; omega)
    rw [Nat.cast_mul] at this ⊢
    exact this
  · unfold fileEndNano
    rw [rO, rD, rS, toInt64_of_lt _ (by rw [p63]; omega)]
    have e : w.Offset * 10000000 + w.Duration * 10000000 =
        (w.Offset + w.Duration) * 10000000 := by omega
    rw [e]

/-! ## Lemmas: the expected shape -/

theorem assertMap_eq_some (j : JSON) (fields : List (String × JSON)) :
    assertMap j = some fields ↔ j = JSON.object fields := by
  cases j <;> simp [assertMap]

theorem assertArray_eq_some (j : JSON) (elems : List JSON) :
    assertArray j = some elems ↔ j = JSON.array elems := by
  cases j <;> simp [assertArray]

theorem assertString_eq_some (j : JSON) (s : String) :
    assertString j = some s ↔ j = JSON.string s := by
  cases j <;> simp [assertString]

theorem assertFloat64_eq_some (j : JSON) (x : Nat) :
    assertFloat64 j = some x ↔ j = JSON.number x := by
  cases j <;> simp [assertFloat64]

theorem wordOf_isSome_iff (word : JSON) : (∃ w, wordOf word = some w) ↔ WordShape word := by
  unfold wordOf WordShape
  simp only [Option.bind_eq_bind, Option.bind_eq_some, Option.pure_def, Option.some.injEq,
    assertMap_eq_some, assertString_eq_some, assertFloat64_eq_some]
  constructor
  · rintro ⟨_, fields, h1, id, h2, o, h3, d, h4, t, h5, _⟩
    exact ⟨fields, h1, ⟨id, h2⟩, ⟨t, h5⟩, ⟨o, h3⟩, ⟨d, h4⟩⟩
  · rintro ⟨fields, h1, ⟨id, h2⟩, ⟨t, h5⟩, ⟨o, h3⟩, ⟨d, h4⟩⟩
    exact ⟨_, fields, h1, id, h2, o, h3, d, h4, t, h5, rfl⟩

theorem traverseOpt_isSome_iff {α β : Type} (f : α → Option β) (P : α → Prop)
    (hf : ∀ a, (∃ b, f a = some b) ↔ P a) (xs : List α) :
    (∃ bs, traverseOpt f xs = some bs) ↔ ∀ a ∈ xs, P a := by
  induction xs with
  | nil => simp [traverseOpt]
  | cons a rest ih =>
    simp only [traverseOpt, List.mem_cons, forall_eq_or_imp]
    rw [← ih, ← hf a]
    cases h1 : f a with
    | none => simp
    | some b =>
      cases h2 : traverseOpt f rest with
      | none => simp
      | some bs => simp

theorem sentenceWords_isSome_iff (sentence : JSON) :
    (∃ ws, sentenceWords sentence = some ws) ↔ SentenceShape sentence := by
  unfold sentenceWords SentenceShape
  simp only [Option.bind_eq_bind, Option.bind_eq_some, assertMap_eq_some, assertArray_eq_some]
  constructor
  · rintro ⟨ws, m, h1, words, h2, h3⟩
    exact ⟨m, h1, words, h2,
      (traverseOpt_isSome_iff wordOf WordShape wordOf_isSome_iff words).1 ⟨ws, h3⟩⟩
  · rintro ⟨m, h1, words, h2, hall⟩
    obtain ⟨ws, hws⟩ :=
      (traverseOpt_isSome_iff wordOf WordShape wordOf_isSome_iff words).2 hall
    exact ⟨ws, m, h1, words, h2, hws⟩

theorem resultJson_index (decode : String → Option JSON) (text : String) (nBest : List JSON) :
    JSON.index (resultJson decode text) "NBest" = JSON.array nBest ↔
      ∃ fields, decode text = some (JSON.object fields) ∧
        JSON.index fields "NBest" = JSON.array nBest := by
  unfold resultJson
  cases hd : decode text with
  | none => simp [JSON.index]
  | some j => cases j <;> simp [JSON.index]

theorem payloadWords_isSome_iff (decode : String → Option JSON) (text : String) :
    (∃ ws, payloadWords decode text = some ws) ↔ ExpectedShape (decode text) := by
  unfold payloadWords ExpectedShape
  simp only [Option.bind_eq_bind, Option.bind_eq_some, Option.pure_def, Option.some.injEq,
    assertArray_eq_some, resultJson_index]
  constructor
  · rintro ⟨_, nBest, ⟨fields, hd, h3⟩, wss, h2, _⟩
    exact ⟨fields, hd, nBest, h3, (traverseOpt_isSome_iff sentenceWords SentenceShape
      sentenceWords_isSome_iff nBest).1 ⟨wss, h2⟩⟩
  · rintro ⟨fields, hd, nBest, h3, hall⟩
    obtain ⟨wss, hws⟩ := (traverseOpt_isSome_iff sentenceWords SentenceShape
      sentenceWords_isSome_iff nBest).2 hall
    exact ⟨_, nBest, ⟨fields, hd, h3⟩, wss, hws, rfl⟩

/-! ## Lemmas: transcript keys -/

theorem digitChar_spec (m : Nat) (h : m < 10) :
    (Nat.digitChar m).isDigit = true ∧ (Nat.digitChar m).toNat - 48 = m := by
  interval_cases m <;> decide

theorem digitsValue_snoc (l : List Char) (c : Char) :
    digitsValue (l ++ [c]) = 10 * digitsValue l + (c.toNat - 48) := by
  simp [digitsValue, List.foldl_append]

theorem toDigitsCore_spec (fuel : Nat) :
    ∀ (n : Nat) (ds : List Char), n < fuel →
      ∃ l, Nat.toDigitsCore 10 fuel n ds = l ++ ds ∧ l ≠ [] ∧
        (∀ c ∈ l, c.isDigit = true) ∧ digitsValue l = n := by
  induction fuel with
  | zero =>
    intro n ds h
    omega
  | succ fuel ih =>
    intro n ds h
    have hd := digitChar_spec (n % 10) (Nat.mod_lt _ (by decide))
    by_cases h0 : n / 10 = 0
    · refine ⟨[Nat.digitChar (n % 10)], ?_, by simp, ?_, ?_⟩
      · simp [Nat.toDigitsCore, h0]
      · intro c hc
        simp only [List.mem_singleton] at hc
        rw [hc]
        exact hd.1
      · simp only [digitsValue, List.foldl_cons, List.foldl_nil]
        rw [hd.2]
        omega
    · obtain ⟨l, h1, h2, h3, h4⟩ := ih (n / 10) (Nat.digitChar (n % 10) :: ds) (by omega)
      refine ⟨l ++ [Nat.digitChar (n % 10)], ?_, by simp, ?_, ?_⟩
      · simp [Nat.toDigitsCore, h0, h1]
      · intro c hc
        simp only [List.mem_append, List.mem_singleton] at hc
        rcases hc with hc | hc
        · exact h3 c hc
        · rw [hc]
          exact hd.1
      · rw [digitsValue_snoc, h4, hd.2]
        omega

theorem natRepr_spec (n : Nat) :
    (toString n).data ≠ [] ∧ (∀ c ∈ (toString n).data, c.isDigit = true) ∧
      digitsValue (toString n).data = n := by
  obtain ⟨l, h1, h2, h3, h4⟩ := toDigitsCore_spec (n + 1) n [] (by omega)
  have hdata : (toString n).data = l := by
    show (Nat.toDigits 10 n) = l
    simpa [Nat.toDigits] using h1
  rw [hdata]
  exact ⟨h2, h3, h4⟩

theorem intRepr_spec (i : Int) :
    intValue (toString i).data = i ∧
    ∃ sign d, (toString i).data = sign ++ d ∧ (sign = [] ∨ sign = ['-']) ∧ d ≠ [] ∧
      ∀ c ∈ d, c.isDigit = true := by
  cases i with
  | ofNat m =>
    obtain ⟨h1, h2, h3⟩ := natRepr_spec m
    have hdata : (toString (Int.ofNat m)).data = (toString m).data := rfl
    rw [hdata]
    refine ⟨?_, [], (toString m).data, rfl, Or.inl rfl, h1, h2⟩
    have hh : (toString m).data.head? ≠ some '-' := by
      cases hl : (toString m).data with
      | nil => simp
      | cons c rest =>
        have := h2 c (by rw [hl]; simp)
        simp only [List.head?_cons, ne_eq, Option.some.injEq]
        intro hc
        rw [hc] at this
        exact absurd this (by decide)
    simp [intValue, hh, h3]
  | negSucc m =>
    obtain ⟨h1, h2, h3⟩ := natRepr_spec (m + 1)
    have hdata : (toString (Int.negSucc m)).data = '-' :: (toString (m + 1)).data := rfl
    rw [hdata]
    refine ⟨?_, ['-'], (toString (m + 1)).data, rfl, Or.inr rfl, h1, h2⟩
    simp [intValue, h3, Int.negSucc_eq]

theorem keyParts_spec (a b : Int) :
    keyParts ((toString a).data ++ '-' :: (toString b).data) =
      ((toString a).data, (toString b).data) := by
  obtain ⟨_, sign, d, h1, h2, h3, h4⟩ := intRepr_spec a
  rw [h1]
  have hneg : ¬ Char.isDigit '-' = true := by decide
  have htake : List.takeWhile Char.isDigit (d ++ '-' :: (toString b).data) = d := by
    rw [List.takeWhile_append_of_pos h4, List.takeWhile_cons_of_neg hneg]
    simp
  have hdrop : List.dropWhile Char.isDigit (d ++ '-' :: (toString b).data) =
      '-' :: (toString b).data := by
    rw [List.dropWhile_append_of_pos h4, List.dropWhile_cons_of_neg hneg]
  rcases h2 with h2 | h2
  · subst h2
    have hh : (d ++ '-' :: (toString b).data).head? ≠ some '-' := by
      cases hl : d with
      | nil => exact absurd hl h3
      | cons c rest =>
        have := h4 c (by rw [hl]; simp)
        simp only [List.cons_append, List.head?_cons, ne_eq, Option.some.injEq]
        intro hc
        rw [hc] at this
        exact absurd this (by decide)
    simp only [List.nil_append, keyParts, hh, if_false, htake, hdrop, List.tail_cons]
  · subst h2
    simp only [keyParts, List.cons_append, List.nil_append, List.head?_cons, if_true,
      List.tail_cons, htake, hdrop]

theorem key_injective (a b c d : Int)
    (h : toString a ++ "-" ++ toString b = toString c ++ "-" ++ toString d) :
    a = c ∧ b = d := by
  have hdata := congrArg String.data h
  simp only [String.data_append] at hdata
  rw [List.append_assoc, List.append_assoc, List.singleton_append,
    List.singleton_append] at hdata
  have hp := congrArg keyParts hdata
  rw [keyParts_spec, keyParts_spec] at hp
  have h1 := congrArg intValue (congrArg Prod.fst hp)
  have h2 := congrArg intValue (congrArg Prod.snd hp)
  simp only [(intRepr_spec a).1, (intRepr_spec b).1, (intRepr_spec c).1,
    (intRepr_spec d).1] at h1 h2
  exact ⟨h1, h2⟩

theorem storeKey_eq_iff (w1 w2 : Word) :
    storeKey w1 = storeKey w2 ↔ startNano w1 = startNano w2 ∧ endNano w1 = endNano w2 := by
  constructor
  · intro h
    exact key_injective _ _ _ _ h
  · rintro ⟨h1, h2⟩
    unfold storeKey
    rw [h1, h2]

theorem toFinset_card_eq_length_iff (l : List String) :
    l.toFinset.card = l.length ↔ l.Nodup := by
  constructor
  · intro h
    rw [List.card_toFinset] at h
    have := List.Sublist.eq_of_length (List.dedup_sublist l) h
    exact List.dedup_eq_self.1 this
  · exact List.toFinset_card_of_nodup

/-! ## C1: speaker naming -/

/-- C1: speaker naming is stable and first-seen-ordered.  When the handler is fed the
words `ws` starting from empty maps, it completes, the line it prints for each word
shows the name `"Speaker k"` where `k` is the rank of first appearance of the word's
speaker id (empty ids replaced by `"Unknown"`) among the ids of the run, and the
registry holds that name for the id at the end. -/
theorem speaker_naming_first_seen (decode : String → Option JSON) (loc : Location)
    (events : List Event) (ws : List Word) (h : runWords decode events = some ws) :
    deliver decode loc State.init events = Except.ok (feed loc State.init ws) ∧
    (feed loc State.init ws).stdout = ws.map (fun w =>
      fmtLine ("Speaker " ++ toString (firstSeenRank (speakerIds ws) (speakerKey w.SpeakerId)))
        (Format loc (startNano w)) (Format loc (endNano w)) w.Word) ∧
    ∀ w ∈ ws, (feed loc State.init ws).speakers.Load (speakerKey w.SpeakerId) =
      some ("Speaker " ++ toString (firstSeenRank (speakerIds ws) (speakerKey w.SpeakerId))) := by
  have hr : Ranked (feed loc State.init ws).speakers (speakerIds ws) := by
    simpa using Ranked_feed loc ws State.init [] Ranked_init
  have hl : ∀ w ∈ ws, (feed loc State.init ws).speakers.Load (speakerKey w.SpeakerId) =
      some ("Speaker " ++ toString (firstSeenRank (speakerIds ws) (speakerKey w.SpeakerId))) := by
    intro w hw
    apply hr.2.2
    simp only [speakerIds, List.mem_map]
    exact ⟨w, hw, rfl⟩
  refine ⟨deliver_of_some decode loc State.init events ws h, ?_, hl⟩
  rw [feed_stdout]
  simp only [State.init, List.nil_append]
  apply List.map_congr_left
  intro w hw
  have := hl w hw
  simp only [State.init] at this
  simp [liveLine, this, fmtName]

/-- C1, witness: the ids `A`, `B`, `A`, `C` are shown as `Speaker 1`, `Speaker 2`,
`Speaker 1`, `Speaker 3`. -/
theorem speaker_naming_first_seen_witness :
    runWords decodeABAC [recognized "abac"] =
      some [⟨"A", "good", 0, 1⟩, ⟨"B", "morning", 1, 1⟩, ⟨"A", "to", 2, 1⟩, ⟨"C", "you", 3, 1⟩] ∧
    (deliver decodeABAC utc State.init [recognized "abac"]).map State.stdout =
      Except.ok ["- **Speaker 1** (00:00.000 - 00:00.010): good\n",
        "- **Speaker 2** (00:00.010 - 00:00.020): morning\n",
        "- **Speaker 1** (00:00.020 - 00:00.030): to\n",
        "- **Speaker 3** (00:00.030 - 00:00.040): you\n"] ∧
    (feed utc State.init
        [⟨"A", "good", 0, 1⟩, ⟨"B", "morning", 1, 1⟩, ⟨"A", "to", 2, 1⟩, ⟨"C", "you", 3, 1⟩]).speakers =
      [("A", "Speaker 1"), ("B", "Speaker 2"), ("C", "Speaker 3")] :=
  have h := speaker_naming_first_seen decodeABAC utc [recognized "abac"]
    [⟨"A", "good", 0, 1⟩, ⟨"B", "morning", 1, 1⟩, ⟨"A", "to", 2, 1⟩, ⟨"C", "you", 3, 1⟩] rfl
  ⟨rfl, by rw [h.1]; rfl, rfl⟩

/-! ## C4: the empty speaker id -/

/-- C4: an empty speaker id is mapped to the sentinel `"Unknown"`.  For a word with an
empty `SpeakerId` the loop body runs the naming step on the key `"Unknown"`, stores the
record with `SpeakerId = "Unknown"` and prints the name registered for `"Unknown"`.  In a
run from empty maps the empty string is never a key of the registry, no stored record has
an empty speaker id, and every line printed for a word with an empty id shows the one name
the registry holds for `"Unknown"`. -/
theorem empty_speaker_id_is_unknown (decode : String → Option JSON) (loc : Location)
    (events : List Event) (ws : List Word) (h : runWords decode events = some ws) :
    (∀ (st : State) (w : Word), w.SpeakerId = "" →
      (processWord loc st w).speakers = (nameStep st.speakers "Unknown").1 ∧
      (processWord loc st w).transcriptData.Load (storeKey w) =
        some ⟨"Unknown", w.Word, w.Offset, w.Duration⟩ ∧
      (∃ name, (processWord loc st w).speakers.Load "Unknown" = some name) ∧
      (processWord loc st w).stdout = st.stdout ++
        [fmtLine (fmtName ((processWord loc st w).speakers.Load "Unknown"))
          (Format loc (startNano w)) (Format loc (endNano w)) w.Word]) ∧
    deliver decode loc State.init events = Except.ok (feed loc State.init ws) ∧
    "" ∉ (feed loc State.init ws).speakers.keys ∧
    (∀ e ∈ (feed loc State.init ws).transcriptData, e.2.SpeakerId ≠ "") ∧
    ∀ (i : Nat) (w : Word), ws[i]? = some w → w.SpeakerId = "" →
      (feed loc State.init ws).stdout[i]? =
        some (fmtLine (fmtName ((feed loc State.init ws).speakers.Load "Unknown"))
          (Format loc (startNano w)) (Format loc (endNano w)) w.Word) := by
  refine ⟨?_, deliver_of_some decode loc State.init events ws h, ?_, ?_, ?_⟩
  · intro st w hw
    have hk : speakerKey w.SpeakerId = "Unknown" := by simp [speakerKey, hw]
    obtain ⟨h1, name, h2⟩ := nameStep_snd st.speakers "Unknown"
    refine ⟨by simp [processWord, hk], ?_, ?_, ?_⟩
    · rw [processWord_transcriptData, Load_Store_self]
      simp [stored, hk]
    · exact ⟨name, by simp only [processWord, hk]; rw [← h1, h2]⟩
    · simp only [processWord, hk, liveLine]
      rw [← h1]
  · intro hc
    rw [feed_speakers_keys] at hc
    rcases hc with hc | hc
    · simp [State.init, SyncMap.keys] at hc
    · simp only [speakerIds, List.mem_map] at hc
      obtain ⟨w, _, hw⟩ := hc
      exact speakerKey_ne_empty _ hw
  · intro e he
    rcases feed_store_records loc ws State.init e he with h1 | ⟨w, _, hw⟩
    · simp [State.init] at h1
    · rw [hw]
      exact speakerKey_ne_empty _
  · intro i w hi hw
    have hk : speakerKey w.SpeakerId = "Unknown" := by simp [speakerKey, hw]
    rw [feed_stdout]
    simp only [State.init, List.nil_append, List.getElem?_map, hi, Option.map_some']
    rw [hk]
    rfl

/-- C4, witness: two words without speaker id, one with. -/
theorem empty_speaker_id_is_unknown_witness :
    runWords (fun _ => some (samplePayload [sampleSentence
        [sampleWord "" "uh" 0 1, sampleWord "7" "yes" 1 1, sampleWord "" "oh" 2 1]]))
      [recognized "x"] = some [⟨"", "uh", 0, 1⟩, ⟨"7", "yes", 1, 1⟩, ⟨"", "oh", 2, 1⟩] ∧
    (feed utc State.init [⟨"", "uh", 0, 1⟩, ⟨"7", "yes", 1, 1⟩, ⟨"", "oh", 2, 1⟩]).speakers =
      [("Unknown", "Speaker 1"), ("7", "Speaker 2")] ∧
    (feed utc State.init [⟨"", "uh", 0, 1⟩, ⟨"7", "yes", 1, 1⟩, ⟨"", "oh", 2, 1⟩]).stdout[2]? =
      some "- **Speaker 1** (00:00.020 - 00:00.030): oh\n" :=
  have h := empty_speaker_id_is_unknown (fun _ => some (samplePayload [sampleSentence
      [sampleWord "" "uh" 0 1, sampleWord "7" "yes" 1 1, sampleWord "" "oh" 2 1]])) utc
    [recognized "x"] [⟨"", "uh", 0, 1⟩, ⟨"7", "yes", 1, 1⟩, ⟨"", "oh", 2, 1⟩] rfl
  ⟨rfl, rfl, (h.2.2.2.2 2 ⟨"", "oh", 2, 1⟩ rfl rfl).trans rfl⟩

/-! ## C5: the naming step is idempotent -/

/-- C5: for an id already in the registry the naming step returns the registered name and
leaves the registry as it is (same entries, same size); and for any registry and any id,
running the step a second time returns the same name and the same registry as the first. -/
theorem naming_idempotent (m : SyncMap String) (id name : String)
    (h : m.Load id = some name) :
    nameStep m id = (m, some name) ∧ (nameStep m id).1.length = m.length ∧
    ∀ (m1 : SyncMap String) (id1 : String),
      nameStep (nameStep m1 id1).1 id1 = nameStep m1 id1 := by
  have h1 := nameStep_of_some m id name h
  refine ⟨h1, by rw [h1], ?_⟩
  intro m1 id1
  obtain ⟨h2, name1, h3⟩ := nameStep_snd m1 id1
  rw [h3] at h2
  rw [nameStep_of_some _ id1 name1 h2.symm, ← h3]

/-- C5, witness: `B` is already named in a registry of two speakers. -/
theorem naming_idempotent_witness :
    SyncMap.Load [("A", "Speaker 1"), ("B", "Speaker 2")] "B" = some "Speaker 2" ∧
    nameStep [("A", "Speaker 1"), ("B", "Speaker 2")] "B" =
      ([("A", "Speaker 1"), ("B", "Speaker 2")], some "Speaker 2") :=
  ⟨rfl, (naming_idempotent [("A", "Speaker 1"), ("B", "Speaker 2")] "B" "Speaker 2" rfl).1⟩

/-! ## C6: missing configuration -/

/-- C6: missing configuration is fatal and produces no output file.  When at least one of
the four environment values is empty, all the program does is print `"<NAME> must be set"`
for the first empty one in the order of the checks: the audio file is not read, recognition
is not started, the output file is neither created nor written. -/
theorem missing_configuration_is_fatal (w : World)
    (h : ∃ name ∈ requiredNames, w.Getenv name = "") :
    (firstMissing w.Getenv).map (fun name => [Effect.Print (name ++ " must be set\n")]) =
      some (main w) ∧
    (∀ name, Effect.ReadFile name ∉ main w) ∧ Effect.Recognize ∉ main w ∧
    (∀ name, Effect.Create name ∉ main w) ∧ (∀ text, Effect.Fprint text ∉ main w) := by
  have key : (firstMissing w.Getenv).map
      (fun name => [Effect.Print (name ++ " must be set\n")]) = some (main w) := by
    obtain ⟨name, hmem, hname⟩ := h
    simp only [requiredNames, List.mem_cons, List.mem_singleton, List.not_mem_nil,
      or_false] at hmem
    unfold firstMissing requiredNames main
    by_cases h1 : w.Getenv "AZURE_SPEECH_KEY" = ""
    · simp [List.find?, h1]
    · by_cases h2 : w.Getenv "AZURE_SERVICE_REGION" = ""
      · simp [List.find?, h1, h2]
      · by_cases h3 : w.Getenv "SOUND_FILE" = ""
        · simp [List.find?, h1, h2, h3]
        · by_cases h4 : w.Getenv "OUTPUT_FILE" = ""
          · simp [List.find?, h1, h2, h3, h4]
          · rcases hmem with hm | hm | hm | hm
            · exact absurd (hm ▸ hname) h1
            · exact absurd (hm ▸ hname) h2
            · exact absurd (hm ▸ hname) h3
            · exact absurd (hm ▸ hname) h4
  cases hf : firstMissing w.Getenv with
  | none => simp [hf] at key
  | some name =>
    simp only [hf, Option.map_some', Option.some.injEq] at key
    rw [← key]
    simp

/-- C6, witness: the region is missing, and so is the output file name. -/
theorem missing_configuration_is_fatal_witness :
    (∃ name ∈ requiredNames,
      (fun n => if n = "AZURE_SPEECH_KEY" ∨ n = "SOUND_FILE" then "set" else "") name = "") ∧
    main ⟨fun n => if n = "AZURE_SPEECH_KEY" ∨ n = "SOUND_FILE" then "set" else "",
        fun _ _ => none, fun _ => none, decodeABAC, [recognized "abac"], none,
        fun _ => none, utc, id, fun m => List.Perm.refl m⟩ =
      [Effect.Print "AZURE_SERVICE_REGION must be set\n"] :=
  have hyp : ∃ name ∈ requiredNames,
      (fun n => if n = "AZURE_SPEECH_KEY" ∨ n = "SOUND_FILE" then "set" else "") name = "" :=
    ⟨"OUTPUT_FILE", by decide, by decide⟩
  ⟨hyp, Option.some.inj
    (missing_configuration_is_fatal ⟨fun n => if n = "AZURE_SPEECH_KEY" ∨ n = "SOUND_FILE"
        then "set" else "", fun _ _ => none, fun _ => none, decodeABAC, [recognized "abac"], none,
        fun _ => none, utc, id, fun m => List.Perm.refl m⟩ hyp).1.symm⟩

/-! ## C7: the transcript writer -/

/-- C2: time formatting, the code at the failing input.  A word with `Offset = 0` and
`Duration = 1000000000` ticks should be rendered with the start `"00:00.000"` and the end
`"00:01.000"`.  The code multiplies the tick counts by `10000000` and takes the product for
nanoseconds: the start is rendered `"00:00.000"`, but the end is `10000000000000000`
nanoseconds after the epoch and is rendered `"46:40.000"`, by the handler and by the writer
alike; the same happens to the start of a word one second (`10000000` ticks) into the
audio. -/
theorem time_formatting_failing_input :
    startNano ⟨"1", "hello", 0, 1000000000⟩ = 0 ∧
    endNano ⟨"1", "hello", 0, 1000000000⟩ = 10000000000000000 ∧
    fileEndNano ⟨"1", "hello", 0, 1000000000⟩ = 10000000000000000 ∧
    Format utc (startNano ⟨"1", "hello", 0, 1000000000⟩) = "00:00.000" ∧
    Format utc (endNano ⟨"1", "hello", 0, 1000000000⟩) = "46:40.000" ∧
    Format utc (fileEndNano ⟨"1", "hello", 0, 1000000000⟩) = "46:40.000" ∧
    Format utc (endNano ⟨"1", "hello", 0, 1000000000⟩) ≠ "00:01.000" ∧
    Format utc (fileEndNano ⟨"1", "hello", 0, 1000000000⟩) ≠ "00:01.000" ∧
    Format utc (startNano ⟨"1", "hello", 10000000, 0⟩) = "46:40.000" := by
  decide

/-! ## C10: the live line and the file line -/

/-- C10 (as stated), refuted: the word with `Offset = 115292150460` and `Duration = 1` meets
the bound `(Offset + Duration) * 10000000 < 2^63`, its entry is not overwritten, the handler
prints the end time `"58:24.610"` and the writer writes `"58:24.609"`: the float sum
`Offset*10000000 + Duration*10000000` is rounded down by 128 nanoseconds. -/
theorem live_line_eq_file_line_counterexample :
    (115292150460 + 1) * 10000000 < 2 ^ 63 ∧
    endNano ⟨"S", "late", 115292150460, 1⟩ = 1152921504610000000 ∧
    fileEndNano ⟨"S", "late", 115292150460, 1⟩ = 1152921504609999872 ∧
    (feed utc State.init [⟨"S", "late", 115292150460, 1⟩]).stdout =
      ["- **Speaker 1** (58:24.600 - 58:24.610): late\n"] ∧
    writeTranscript utc (feed utc State.init [⟨"S", "late", 115292150460, 1⟩]).speakers
        (feed utc State.init [⟨"S", "late", 115292150460, 1⟩]).transcriptData =
      ["- **Speaker 1** (58:24.600 - 58:24.609): late\n"] := by
  decide

/-- C10 (amended): in a run from empty maps the line printed for each word shows the name
the registry holds for its speaker id at the end of the run; and for every word whose
`Offset` and `Duration` satisfy `(Offset + Duration) * 10000000 < 2^60`, the end time the
writer derives from the stored record is the end time the handler computed, the line the
writer produces from the stored record equals the line printed live, and that line is in
the file whenever the store still holds the record under the key of the word, whatever the
order in which the map yields its entries. -/
theorem live_line_eq_file_line (decode : String → Option JSON) (loc : Location)
    (events : List Event) (ws : List Word) (h : runWords decode events = some ws) :
    deliver decode loc State.init events = Except.ok (feed loc State.init ws) ∧
    (feed loc State.init ws).stdout = ws.map (fun w =>
      liveLine loc ((feed loc State.init ws).speakers.Load (speakerKey w.SpeakerId)) w) ∧
    ∀ w ∈ ws, (w.Offset + w.Duration) * 10000000 < 2 ^ 60 →
      startNano (stored w) = startNano w ∧
      fileEndNano (stored w) = endNano w ∧
      fileLine loc (feed loc State.init ws).speakers (stored w) =
        liveLine loc ((feed loc State.init ws).speakers.Load (speakerKey w.SpeakerId)) w ∧
      ((feed loc State.init ws).transcriptData.Load (storeKey w) = some (stored w) →
        liveLine loc ((feed loc State.init ws).speakers.Load (speakerKey w.SpeakerId)) w ∈
          writeTranscript loc (feed loc State.init ws).speakers
            (feed loc State.init ws).transcriptData) ∧
      (∀ entries : SyncMap Word, entries.Perm (feed loc State.init ws).transcriptData →
        (feed loc State.init ws).transcriptData.Load (storeKey w) = some (stored w) →
        liveLine loc ((feed loc State.init ws).speakers.Load (speakerKey w.SpeakerId)) w ∈
          writeTranscript loc (feed loc State.init ws).speakers entries) := by
  refine ⟨deliver_of_some decode loc State.init events ws h, ?_, ?_⟩
  · rw [feed_stdout]
    simp [State.init]
  · intro w _ hb
    obtain ⟨_, h2, h3⟩ := nanos_exact w hb
    have hfe : fileEndNano (stored w) = endNano w := by
      have : fileEndNano (stored w) = fileEndNano w := rfl
      rw [this, h2, h3]
    have hline : fileLine loc (feed loc State.init ws).speakers (stored w) =
        liveLine loc ((feed loc State.init ws).speakers.Load (speakerKey w.SpeakerId)) w := by
      unfold fileLine liveLine
      rw [hfe]
      rfl
    refine ⟨rfl, hfe, hline, ?_, ?_⟩
    · intro hl
      rw [← hline, writeTranscript_eq_map, List.mem_map]
      exact ⟨(storeKey w, stored w), mem_of_Load _ _ _ hl, rfl⟩
    · intro entries hp hl
      rw [← hline, writeTranscript_eq_map, List.mem_map]
      exact ⟨(storeKey w, stored w), (List.Perm.mem_iff hp).2 (mem_of_Load _ _ _ hl), rfl⟩

/-- C10 (amended), witness: four words of a few ticks each. -/
theorem live_line_eq_file_line_witness :
    runWords decodeABAC [recognized "abac"] =
      some [⟨"A", "good", 0, 1⟩, ⟨"B", "morning", 1, 1⟩, ⟨"A", "to", 2, 1⟩, ⟨"C", "you", 3, 1⟩] ∧
    (1 + 1) * 10000000 < 2 ^ 60 ∧
    fileLine utc (feed utc State.init
        [⟨"A", "good", 0, 1⟩, ⟨"B", "morning", 1, 1⟩, ⟨"A", "to", 2, 1⟩, ⟨"C", "you", 3, 1⟩]).speakers
        (stored ⟨"B", "morning", 1, 1⟩) =
      "- **Speaker 2** (00:00.010 - 00:00.020): morning\n" :=
  have h := live_line_eq_file_line decodeABAC utc [recognized "abac"]
    [⟨"A", "good", 0, 1⟩, ⟨"B", "morning", 1, 1⟩, ⟨"A", "to", 2, 1⟩, ⟨"C", "you", 3, 1⟩] rfl
  ⟨rfl, by decide, ((h.2.2 ⟨"B", "morning", 1, 1⟩ (by decide) (by decide)).2.2.1).trans rfl⟩

/-! ## C9: malformed payloads -/

/-- C9: malformed payloads are not handled defensively.  On an event of recognized speech
the handler panics exactly when the result text does not decode to an object with an
`NBest` array of objects with a `Words` array of objects having string `SpeakerId`, string
`Word`, numeric `Offset` and numeric `Duration`, and completes for every text of that
shape; it panics for a text that is not valid JSON, for an object without `NBest`, and on
a word without `SpeakerId`. -/
theorem malformed_payload_panics (decode : String → Option JSON) (loc : Location)
    (st : State) (s : Event) (h : s.Reason = ResultReason.RecognizedSpeech) :
    ((∃ c, Recognized decode loc st s = Except.error c) ↔ ¬ ExpectedShape (decode s.Text)) ∧
    ((∃ st1, Recognized decode loc st s = Except.ok st1) ↔ ExpectedShape (decode s.Text)) ∧
    (decode s.Text = none → ∃ c, Recognized decode loc st s = Except.error c) ∧
    (∀ fields, decode s.Text = some (JSON.object fields) →
      JSON.index fields "NBest" = JSON.null →
      ∃ c, Recognized decode loc st s = Except.error c) ∧
    (∀ (st1 : State) (w : List (String × JSON)), JSON.index w "SpeakerId" = JSON.null →
      ∃ c, wordStep loc st1 (JSON.object w) = Except.error c) := by
  have hev : eventWords decode s = payloadWords decode s.Text := by simp [eventWords, h]
  have hok : (∃ st1, Recognized decode loc st s = Except.ok st1) ↔
      ExpectedShape (decode s.Text) := by
    rw [← payloadWords_isSome_iff, ← hev]
    constructor
    · rintro ⟨st1, h1⟩
      cases h2 : eventWords decode s with
      | some ws => exact ⟨ws, rfl⟩
      | none =>
        obtain ⟨c, hc⟩ := Recognized_of_none decode loc st s h2
        rw [hc] at h1
        cases h1
    · rintro ⟨ws, h1⟩
      exact ⟨_, Recognized_of_some decode loc st s ws h1⟩
  have herr : (∃ c, Recognized decode loc st s = Except.error c) ↔
      ¬ ExpectedShape (decode s.Text) := by
    rw [← hok]
    cases h1 : Recognized decode loc st s with
    | ok st1 => simp
    | error c => simp
  refine ⟨herr, hok, ?_, ?_, ?_⟩
  · intro hd
    apply herr.2
    rintro ⟨fields, hf, _⟩
    rw [hd] at hf
    cases hf
  · intro fields hd hn
    apply herr.2
    rintro ⟨fields1, hf, nBest, hb, _⟩
    rw [hd] at hf
    cases hf
    rw [hn] at hb
    cases hb
  · intro st1 w hw
    exact ⟨⟨st1.stdout⟩, by simp [wordStep_eq, wordOf, assertMap, assertString, hw]⟩

/-- C9, witness: the second word of the payload has no `SpeakerId`; the handler panics
after the line of the first word. -/
theorem malformed_payload_panics_witness :
    (recognized "x").Reason = ResultReason.RecognizedSpeech ∧
    ¬ ExpectedShape ((fun _ => some (samplePayload [sampleSentence [sampleWord "1" "so" 0 1,
      JSON.object [("Word", JSON.string "far"), ("Offset", JSON.number 1),
        ("Duration", JSON.number 1)]]])) (recognized "x").Text) ∧
    Recognized (fun _ => some (samplePayload [sampleSentence [sampleWord "1" "so" 0 1,
      JSON.object [("Word", JSON.string "far"), ("Offset", JSON.number 1),
        ("Duration", JSON.number 1)]]])) utc State.init (recognized "x") =
      Except.error ⟨["- **Speaker 1** (00:00.000 - 00:00.010): so\n"]⟩ :=
  ⟨rfl,
    (malformed_payload_panics (fun _ => some (samplePayload [sampleSentence
      [sampleWord "1" "so" 0 1, JSON.object [("Word", JSON.string "far"),
        ("Offset", JSON.number 1), ("Duration", JSON.number 1)]]])) utc State.init
      (recognized "x") rfl).1.1 ⟨_, rfl⟩,
    rfl⟩

/-! ## C3: live output and file -/

/-- C3 (as stated), refuted: an utterance with two candidates whose words cover the same
time range.  Two lines are printed, one line is written: the record of the second
candidate has replaced that of the first, and the store has one entry to yield. -/
theorem round_trip_counterexample :
    (deliver (fun _ => some (samplePayload [sampleSentence [sampleWord "1" "hello" 0 5],
        sampleSentence [sampleWord "1" "hallo" 0 5]])) utc State.init [recognized "x"]).map
      (fun st => (st.stdout, writeTranscript utc st.speakers st.transcriptData)) =
    Except.ok (["- **Speaker 1** (00:00.000 - 00:00.050): hello\n",
        "- **Speaker 1** (00:00.000 - 00:00.050): hallo\n"],
      ["- **Speaker 1** (00:00.000 - 00:00.050): hallo\n"]) := by
  rfl

/-- C3 (amended): in a run from empty maps one line is printed per word, and the writer,
whatever the order in which the map yields its entries, writes as many lines as there are
different keys among the words; when the keys of the words are pairwise different, the
store holds exactly the records of the words, the lines written are, up to their order,
the lines of the records of the words, one for each word, and the number of lines written
equals the number of lines printed. -/
theorem round_trip (decode : String → Option JSON) (loc : Location)
    (events : List Event) (ws : List Word) (h : runWords decode events = some ws) :
    deliver decode loc State.init events = Except.ok (feed loc State.init ws) ∧
    (feed loc State.init ws).stdout.length = ws.length ∧
    (∀ entries : SyncMap Word, entries.Perm (feed loc State.init ws).transcriptData →
      (writeTranscript loc (feed loc State.init ws).speakers entries).length =
        (ws.map storeKey).toFinset.card) ∧
    ((ws.map storeKey).Nodup →
      (feed loc State.init ws).transcriptData.Perm (ws.map (fun w => (storeKey w, stored w))) ∧
      ∀ entries : SyncMap Word, entries.Perm (feed loc State.init ws).transcriptData →
        (writeTranscript loc (feed loc State.init ws).speakers entries).Perm
          (ws.map (fun w => fileLine loc (feed loc State.init ws).speakers (stored w))) ∧
        (writeTranscript loc (feed loc State.init ws).speakers entries).length =
          (feed loc State.init ws).stdout.length) := by
  have hout : (feed loc State.init ws).stdout.length = ws.length := by
    rw [feed_stdout]
    simp [State.init]
  refine ⟨deliver_of_some decode loc State.init events ws h, hout, ?_, ?_⟩
  · intro entries hp
    rw [writeTranscript_eq_map, List.length_map, List.Perm.length_eq hp, feed_store_length]
  · intro hnd
    have hst : (feed loc State.init ws).transcriptData =
        ws.map (fun w => (storeKey w, stored w)) := by
      have := feed_store_of_nodup loc ws State.init (by simpa [State.init, SyncMap.keys] using hnd)
      simpa [State.init] using this
    refine ⟨by rw [hst], ?_⟩
    intro entries hp
    refine ⟨?_, ?_⟩
    · rw [writeTranscript_eq_map]
      have hm := List.Perm.map (fun e : String × Word =>
        fileLine loc (feed loc State.init ws).speakers e.2) hp
      rw [hst, List.map_map] at hm
      exact hm
    · rw [writeTranscript_eq_map, List.length_map, List.Perm.length_eq hp, hst,
        List.length_map]
      exact hout.symm

/-- C3 (amended), witness: four words with four different time ranges, which the map
yields in another order than that of the words. -/
theorem round_trip_witness :
    runWords decodeABAC [recognized "abac"] =
      some [⟨"A", "good", 0, 1⟩, ⟨"B", "morning", 1, 1⟩, ⟨"A", "to", 2, 1⟩, ⟨"C", "you", 3, 1⟩] ∧
    (List.map storeKey
      [⟨"A", "good", 0, 1⟩, ⟨"B", "morning", 1, 1⟩, ⟨"A", "to", 2, 1⟩, ⟨"C", "you", 3, 1⟩]).Nodup ∧
    List.Perm
      [("20000000-30000000", (⟨"A", "to", 2, 1⟩ : Word)), ("0-10000000", ⟨"A", "good", 0, 1⟩),
        ("30000000-40000000", ⟨"C", "you", 3, 1⟩), ("10000000-20000000", ⟨"B", "morning", 1, 1⟩)]
      (feed utc State.init [⟨"A", "good", 0, 1⟩, ⟨"B", "morning", 1, 1⟩, ⟨"A", "to", 2, 1⟩,
        ⟨"C", "you", 3, 1⟩]).transcriptData ∧
    (writeTranscript utc (feed utc State.init [⟨"A", "good", 0, 1⟩, ⟨"B", "morning", 1, 1⟩,
        ⟨"A", "to", 2, 1⟩, ⟨"C", "you", 3, 1⟩]).speakers
      [("20000000-30000000", ⟨"A", "to", 2, 1⟩), ("0-10000000", ⟨"A", "good", 0, 1⟩),
        ("30000000-40000000", ⟨"C", "you", 3, 1⟩),
        ("10000000-20000000", ⟨"B", "morning", 1, 1⟩)]).length =
      (feed utc State.init [⟨"A", "good", 0, 1⟩, ⟨"B", "morning", 1, 1⟩, ⟨"A", "to", 2, 1⟩,
        ⟨"C", "you", 3, 1⟩]).stdout.length :=
  have h := round_trip decodeABAC utc [recognized "abac"]
    [⟨"A", "good", 0, 1⟩, ⟨"B", "morning", 1, 1⟩, ⟨"A", "to", 2, 1⟩, ⟨"C", "you", 3, 1⟩] rfl
  have hn : (List.map storeKey [⟨"A", "good", 0, 1⟩, ⟨"B", "morning", 1, 1⟩, ⟨"A", "to", 2, 1⟩,
      ⟨"C", "you", 3, 1⟩]).Nodup := by decide
  have hp : List.Perm
      [("20000000-30000000", (⟨"A", "to", 2, 1⟩ : Word)), ("0-10000000", ⟨"A", "good", 0, 1⟩),
        ("30000000-40000000", ⟨"C", "you", 3, 1⟩), ("10000000-20000000", ⟨"B", "morning", 1, 1⟩)]
      (feed utc State.init [⟨"A", "good", 0, 1⟩, ⟨"B", "morning", 1, 1⟩, ⟨"A", "to", 2, 1⟩,
        ⟨"C", "you", 3, 1⟩]).transcriptData := by decide
  ⟨rfl, hn, hp, ((h.2.2.2 hn).2 _ hp).2⟩

/-! ## C8: the keys of the transcript store -/

/-- C8 (as stated), refuted: two utterances of one word each, both words with
`Offset = 0` and `Duration = 5`.  The two occurrences get the same key, and after both have
been handled the store holds one entry, the record of the second word. -/
theorem store_key_counterexample :
    storeKey ⟨"1", "yes", 0, 5⟩ = storeKey ⟨"2", "no", 0, 5⟩ ∧
    (deliver decodeTwo utc State.init [recognized "one", recognized "two"]).map
        (fun st => (st.stdout.length, st.transcriptData)) =
      Except.ok (2, [("0-50000000", ⟨"2", "no", 0, 5⟩)]) := by
  exact ⟨rfl, rfl⟩

/-- C8 (amended): the key of a word is determined by its time range, and by nothing else:
two words have the same key exactly when their start and end nanoseconds are equal.  In a
run from empty maps the keys of the store are pairwise different and are the keys of the
words processed; the store holds as many entries as there are different keys, at most as
many as words, and exactly as many when the keys of the words are pairwise different; the
record found under the key of a word is that of the word itself when no later word has
the same key, so a `Store` replaces the record of an earlier word of the same time range
and of no other. -/
theorem store_key_is_time_range (decode : String → Option JSON) (loc : Location)
    (events : List Event) (ws : List Word) (h : runWords decode events = some ws) :
    (∀ w1 w2 : Word,
      storeKey w1 = storeKey w2 ↔ startNano w1 = startNano w2 ∧ endNano w1 = endNano w2) ∧
    deliver decode loc State.init events = Except.ok (feed loc State.init ws) ∧
    (feed loc State.init ws).transcriptData.keys.Nodup ∧
    (∀ k, k ∈ (feed loc State.init ws).transcriptData.keys ↔ k ∈ ws.map storeKey) ∧
    (feed loc State.init ws).transcriptData.length = (ws.map storeKey).toFinset.card ∧
    (feed loc State.init ws).transcriptData.length ≤ ws.length ∧
    ((feed loc State.init ws).transcriptData.length = ws.length ↔ (ws.map storeKey).Nodup) ∧
    (∀ (st : State) (w u : Word), storeKey u ≠ storeKey w →
      (processWord loc st w).transcriptData.Load (storeKey u) =
        st.transcriptData.Load (storeKey u)) ∧
    ∀ (before after : List Word) (w : Word), ws = before ++ w :: after →
      (∀ u ∈ after, storeKey u ≠ storeKey w) →
      (feed loc State.init ws).transcriptData.Load (storeKey w) = some (stored w) := by
  have hlen := feed_store_length loc ws
  refine ⟨storeKey_eq_iff, deliver_of_some decode loc State.init events ws h,
    feed_store_nodup loc ws State.init (by simp [State.init, SyncMap.keys]), ?_, hlen, ?_, ?_,
    ?_, ?_⟩
  · intro k
    rw [feed_store_keys]
    simp [State.init, SyncMap.keys]
  · rw [hlen]
    simpa using List.toFinset_card_le (ws.map storeKey)
  · rw [hlen]
    have := toFinset_card_eq_length_iff (ws.map storeKey)
    simpa using this
  · intro st w u hne
    rw [processWord_transcriptData]
    exact Load_Store_ne _ _ _ _ (fun hc => hne hc.symm)
  · intro before after w hws hafter
    rw [hws]
    exact feed_store_Load_last loc State.init before after w hafter

/-- C8 (amended), witness: four words with four different time ranges. -/
theorem store_key_is_time_range_witness :
    runWords decodeABAC [recognized "abac"] =
      some [⟨"A", "good", 0, 1⟩, ⟨"B", "morning", 1, 1⟩, ⟨"A", "to", 2, 1⟩, ⟨"C", "you", 3, 1⟩] ∧
    (feed utc State.init
        [⟨"A", "good", 0, 1⟩, ⟨"B", "morning", 1, 1⟩, ⟨"A", "to", 2, 1⟩,
          ⟨"C", "you", 3, 1⟩]).transcriptData.keys =
      ["0-10000000", "10000000-20000000", "20000000-30000000", "30000000-40000000"] ∧
    (feed utc State.init
        [⟨"A", "good", 0, 1⟩, ⟨"B", "morning", 1, 1⟩, ⟨"A", "to", 2, 1⟩,
          ⟨"C", "you", 3, 1⟩]).transcriptData.length = 4 :=
  have h := store_key_is_time_range decodeABAC utc [recognized "abac"]
    [⟨"A", "good", 0, 1⟩, ⟨"B", "morning", 1, 1⟩, ⟨"A", "to", 2, 1⟩, ⟨"C", "you", 3, 1⟩] rfl
  ⟨rfl, rfl, h.2.2.2.2.2.2.1.2 (by decide)⟩

end Transcribe

